import Mathlib

/-!
Verification of a generalized Hamming error-correcting codec.

The functions below are a shallow embedding of the Python module
`hamming.py`: strings of characters are modelled as lists of natural
numbers (Unicode code points), bit strings as lists of naturals each
equal to 0 or 1, and `numpy` arrays as lists.  Fallible operations
(`range(0, L, 0)` raising `ValueError`, `np.dot` shape mismatches,
`int('', 2)`) become `Option`-valued.  `math.log2`/`math.ceil` are
modelled by exact integer arithmetic.
-/

namespace Hamming

/-- Model of `wrap`'s chunk list: `string[i:i+number]` for
`i in range(0, len(string), number)`; that range has
`⌈len/number⌉` elements. -/
def chunksGo (l : List α) (c : Nat) : List (List α) :=
  (List.range ((l.length + c - 1) / c)).map (fun i => (l.drop (i * c)).take c)

/-- Model of `wrap(string, number)`.  When `number = 0` the Python
`range(0, len(string), 0)` raises `ValueError`, modelled as `none`. -/
def wrap (l : List α) (c : Nat) : Option (List (List α)) :=
  if c = 0 then none else some (chunksGo l c)

/-- Fuel-driven little-endian binary digits of a natural number;
`bitsLEAux fuel m` is the digit list of `m` provided `fuel ≥ m`. -/
def bitsLEAux : Nat → Nat → List Nat
  | 0, _ => []
  | _ + 1, 0 => []
  | fuel + 1, m + 1 => (m + 1) % 2 :: bitsLEAux fuel ((m + 1) / 2)

/-- The little-endian binary digits of `m`: `bin(m)[2:]` reversed
(`bin(0)[2:] = "0"` reversed is `"0"`, which contributes no set bits,
so the empty list is an equivalent model once zero-padding is applied). -/
def bitsLE (m : Nat) : List Nat := bitsLEAux m m

/-- `math.ceil(math.log2 m)` for `m ≥ 1`, computed exactly: the bit
length of `m - 1`. -/
def ceilLog2 (m : Nat) : Nat := (bitsLE (m - 1)).length

/-- The `while` loop of `get_control_bits`, with explicit fuel:
`while k < log2(n + k + 1): k = ceil(log2(k + n + 1))`. -/
def controlLoop (n : Nat) : Nat → Nat → Nat
  | 0, k => k
  | fuel + 1, k =>
    if 2 ^ k < n + k + 1 then controlLoop n fuel (ceilLog2 (k + n + 1)) else k

/-- The value of `k` computed by `get_control_bits(n)`; `n + 2` units of
fuel are enough for the loop to reach its fixed point (proved below). -/
def controlK (n : Nat) : Nat := controlLoop n (n + 2) 0

/-- Model of `get_control_bits(block_length)`:
`tuple(2 ** i for i in range(k))`. -/
def get_control_bits (n : Nat) : List Nat :=
  (List.range (controlK n)).map (2 ^ ·)

/-- Row `index - 1` of the pre-transpose matrix:
`list(map(int, bin(index)[2:].zfill(k)))[::-1]`, i.e. the little-endian
digits of `index` right-padded with zeros up to length `k` (longer than
`k` when `index ≥ 2 ^ k`, since `zfill` never truncates). -/
def padRow (k idx : Nat) : List Nat :=
  bitsLE idx ++ List.replicate (k - (bitsLE idx).length) 0

/-- `numpy` transpose of a rectangular matrix whose rows have length `k`. -/
def transposeK (k : Nat) (rows : List (List Nat)) : List (List Nat) :=
  (List.range k).map (fun r => rows.map (fun row => row.getD r 0))

/-- Model of `get_matrix_transform(block_length, k)`.  The assignment
`matrix_transform[index - 1] = bin_value` requires every row to have
exactly `k` entries; otherwise `numpy` raises, modelled as `none`. -/
def get_matrix_transform (n k : Nat) : Option (List (List Nat)) :=
  let rows := (List.range (n + k)).map (fun i => padRow k (i + 1))
  if rows.all (fun row => row.length == k) then some (transposeK k rows)
  else none

/-- `np.dot(matrix_transform, code) % 2` (entry-wise; a `uint8`/`int8`
accumulator wraps modulo 256, which does not change the residue mod 2). -/
def syndromeOf (M : List (List Nat)) (v : List Nat) : List Nat :=
  M.map (fun row => (List.zipWith (· * ·) row v).sum % 2)

/-- `int(''.join(map(str, syndrome[::-1])), 2)`: the syndrome read as a
little-endian binary numeral. -/
def bitsToNatLE : List Nat → Nat
  | [] => 0
  | b :: bs => b + 2 * bitsToNatLE bs

/-- `int(s, 2)` for a most-significant-bit-first digit string. -/
def bitsToNatBE (l : List Nat) : Nat := l.foldl (fun a b => 2 * a + b) 0

/-- `bin(ord(char))[2:].zfill(8)`: big-endian bits of a character code,
left-padded with zeros to at least 8 digits. -/
def charToBits (c : Nat) : List Nat :=
  List.replicate (8 - (bitsLE c).reverse.length) 0 ++ (bitsLE c).reverse

/-- One parity-placeholder insertion:
`bin_char[:bit - 1] + "0" + bin_char[bit - 1:]`. -/
def insertZero (s : List Nat) (p : Nat) : List Nat :=
  s.take (p - 1) ++ 0 :: s.drop (p - 1)

/-- The `for bit in control_bits` placeholder-insertion loop. -/
def insertPlaceholders (cb : List Nat) (s : List Nat) : List Nat :=
  cb.foldl insertZero s

/-- The `for bit, coff in zip(control_bits, r_coffs)` overwrite loop. -/
def setBits (pcs : List (Nat × Nat)) (s : List Nat) : List Nat :=
  pcs.foldl (fun t pc => t.set (pc.1 - 1) pc.2) s

/-- The `for index in control_bits[::-1]: code.pop(index - 1)` loop that
removes the parity bits, highest position first. -/
def stripControl (cb : List Nat) (s : List Nat) : List Nat :=
  cb.reverse.foldl (fun t p => t.eraseIdx (p - 1)) s

/-- Flip the bit at 1-indexed position `p`: the single-bit channel-error
model used by the specification. -/
def flipAt (p : Nat) (l : List Nat) : List Nat :=
  l.set (p - 1) ((l.getD (p - 1) 0) ^^^ 1)

/-- `Option`-valued `mapM`: processing stops (with an exception in the
Python source) at the first failing element. -/
def mapMOpt (f : α → Option β) : List α → Option (List β)
  | [] => some []
  | x :: xs =>
    match f x, mapMOpt f xs with
    | some y, some ys => some (y :: ys)
    | _, _ => none

/-- The per-block body of `hamming_encode`'s `for chars in wrap(...)`
loop.  `np.dot` demands the padded block to have exactly `n + k` bits
(it has more when some character needs more than 8 bits). -/
def hamming_encode_block (M : List (List Nat)) (cb : List Nat) (n : Nat)
    (chars : List Nat) : Option (List Nat) :=
  let bin0 := chars.foldl (fun acc c => acc ++ charToBits c) []
  let bin1 := if bin0.length ≠ n then List.replicate (n - bin0.length) 0 ++ bin0 else bin0
  let bin2 := insertPlaceholders cb bin1
  if bin2.length = n + cb.length then
    some (setBits (cb.zip (syndromeOf M bin2)) bin2)
  else none

/-- Model of `hamming_encode(string, block_length)`. -/
def hamming_encode (text : List Nat) (n : Nat) : Option (List Nat) :=
  let cb := get_control_bits n
  match get_matrix_transform n cb.length with
  | none => none
  | some M =>
    match wrap text (n / 8) with
    | none => none
    | some groups => (mapMOpt (hamming_encode_block M cb n) groups).map List.flatten

/-- The per-block body of `hamming_decode`'s loop: syndrome, correction
policy, parity stripping and 8-bit regrouping.  A block whose length is
not `n + k` makes `np.dot` raise; `k = 0` makes `int('', 2)` raise. -/
def hamming_decode_block (M : List (List Nat)) (cb : List Nat) (n : Nat)
    (code : List Nat) : Option (List Nat) :=
  if code.length = n + cb.length then
    if cb.length = 0 then none
    else
      let index := bitsToNatLE (syndromeOf M code)
      let code2 := if index = 0 then code
        else if index < n + cb.length then
          code.set (index - 1) ((code.getD (index - 1) 0) ^^^ 1)
        else code
      (wrap (stripControl cb code2) 8).map (fun chunks => chunks.map bitsToNatBE)
  else none

/-- Model of `hamming_decode(string, block_length)`. -/
def hamming_decode (bits : List Nat) (n : Nat) : Option (List Nat) :=
  let cb := get_control_bits n
  match get_matrix_transform n cb.length with
  | none => none
  | some M =>
    match wrap bits (n + cb.length) with
    | none => none
    | some blocks => (mapMOpt (hamming_decode_block M cb n) blocks).map List.flatten

/-- The standard parity-check matrix of the code, used as the reference
value in entry computations. -/
def hammingRows (n k : Nat) : List (List Nat) :=
  (List.range (n + k)).map (fun i => padRow k (i + 1))

/-- Specification-side definition: there is some parity count `k` with
`2 ^ k ≥ n + k + 1` (for instance `k = n + 1`). -/
lemma parity_target_exists (n : Nat) : ∃ k, n + k + 1 ≤ 2 ^ k := by
  refine ⟨n + 1, ?_⟩
  have h := Nat.lt_two_pow n
  have h2 : 2 ^ (n + 1) = 2 ^ n * 2 := Nat.pow_succ ..
  omega

/-- Specification-side definition: the minimal parity count for block
length `n`, i.e. the least `k` with `2 ^ k ≥ n + k + 1`. -/
def kmin (n : Nat) : Nat := Nat.find (parity_target_exists n)

end Hamming


namespace Hamming

/-! ### Binary-digit lemmas -/

lemma bitsLEAux_congr (f₁ : Nat) : ∀ f₂ m, m ≤ f₁ → m ≤ f₂ →
    bitsLEAux f₁ m = bitsLEAux f₂ m := by
  induction f₁ with
  | zero =>
    intro f₂ m h₁ _
    have hm : m = 0 := Nat.le_zero.mp h₁
    subst hm
    cases f₂ <;> rfl
  | succ f ih =>
    intro f₂ m h₁ h₂
    cases m with
    | zero => cases f₂ <;> rfl
    | succ m' =>
      cases f₂ with
      | zero => omega
      | succ f₂' =>
        show (m' + 1) % 2 :: bitsLEAux f ((m' + 1) / 2)
            = (m' + 1) % 2 :: bitsLEAux f₂' ((m' + 1) / 2)
        have := ih f₂' ((m' + 1) / 2) (by omega) (by omega)
        rw [this]

lemma bitsLE_succ (m' : Nat) :
    bitsLE (m' + 1) = (m' + 1) % 2 :: bitsLE ((m' + 1) / 2) := by
  have h : bitsLE (m' + 1) = (m' + 1) % 2 :: bitsLEAux m' ((m' + 1) / 2) := rfl
  rw [h]
  have := bitsLEAux_congr m' ((m' + 1) / 2) ((m' + 1) / 2) (by omega) (by omega)
  rw [this]
  rfl

lemma bitsLE_zero : bitsLE 0 = [] := rfl

lemma bitsLE_getD (m : Nat) : ∀ i, (bitsLE m).getD i 0 = m / 2 ^ i % 2 := by
  induction m using Nat.strong_induction_on with
  | _ m ih =>
    intro i
    rcases Nat.eq_zero_or_pos m with hm | hm
    · subst hm
      simp [bitsLE_zero, Nat.zero_div]
    · obtain ⟨m', rfl⟩ : ∃ m', m = m' + 1 := ⟨m - 1, by omega⟩
      rw [bitsLE_succ m']
      cases i with
      | zero => simp
      | succ i =>
        simp only [List.getD_cons_succ]
        rw [ih ((m' + 1) / 2) (by omega) i]
        have : 2 ^ (i + 1) = 2 * 2 ^ i := by rw [Nat.pow_succ]; ring
        rw [this, ← Nat.div_div_eq_div_mul]

lemma bitsLE_length_le (m : Nat) : ∀ k, ((bitsLE m).length ≤ k ↔ m < 2 ^ k) := by
  induction m using Nat.strong_induction_on with
  | _ m ih =>
    intro k
    rcases Nat.eq_zero_or_pos m with hm | hm
    · subst hm
      simp [bitsLE_zero, Nat.two_pow_pos k]
    · obtain ⟨m', rfl⟩ : ∃ m', m = m' + 1 := ⟨m - 1, by omega⟩
      rw [bitsLE_succ m']
      cases k with
      | zero =>
        simp only [List.length_cons, Nat.pow_zero]
        omega
      | succ k =>
        have hrec := ih ((m' + 1) / 2) (by omega) k
        have hp : 2 ^ (k + 1) = 2 * 2 ^ k := by rw [Nat.pow_succ]; ring
        simp only [List.length_cons]
        constructor
        · intro h
          have := hrec.mp (by omega)
          omega
        · intro h
          have := hrec.mpr (by omega)
          omega

lemma ceilLog2_le_iff (x j : Nat) (hx : 1 ≤ x) : ceilLog2 x ≤ j ↔ x ≤ 2 ^ j := by
  unfold ceilLog2
  rw [bitsLE_length_le]
  constructor <;> intro h <;> omega

/-! ### The parity-count fixed point -/

lemma kmin_spec (n : Nat) : n + kmin n + 1 ≤ 2 ^ kmin n :=
  Nat.find_spec (parity_target_exists n)

lemma kmin_min (n j : Nat) (h : n + j + 1 ≤ 2 ^ j) : kmin n ≤ j :=
  Nat.find_min' (parity_target_exists n) h

lemma kmin_le (n : Nat) : kmin n ≤ n + 1 := by
  apply kmin_min
  have h := Nat.lt_two_pow n
  have h2 : 2 ^ (n + 1) = 2 ^ n * 2 := Nat.pow_succ ..
  omega

lemma lt_kmin_not_good (n j : Nat) (h : j < kmin n) : 2 ^ j < n + j + 1 := by
  by_contra h'
  have := kmin_min n j (by omega)
  omega

lemma controlLoop_eq_kmin (n : Nat) :
    ∀ fuel k, k ≤ kmin n → kmin n ≤ k + fuel → controlLoop n fuel k = kmin n := by
  intro fuel
  induction fuel with
  | zero =>
    intro k h1 h2
    have hk : k = kmin n := by omega
    rw [controlLoop, hk]
  | succ fuel ih =>
    intro k h1 h2
    rw [controlLoop]
    by_cases hc : 2 ^ k < n + k + 1
    · rw [if_pos hc]
      have hkm := kmin_spec n
      have hne : k ≠ kmin n := fun he => by rw [he] at hc; omega
      have hklt : k < kmin n := by omega
      have hub : ceilLog2 (k + n + 1) ≤ kmin n := by
        rw [ceilLog2_le_iff _ _ (by omega)]
        omega
      have hlb : k < ceilLog2 (k + n + 1) := by
        by_contra hle
        have := (ceilLog2_le_iff (k + n + 1) k (by omega)).mp (by omega)
        omega
      exact ih _ hub (by omega)
    · rw [if_neg hc]
      have := kmin_min n k (by omega)
      omega

lemma controlK_eq_kmin (n : Nat) : controlK n = kmin n := by
  have h := kmin_le n
  exact controlLoop_eq_kmin n (n + 2) 0 (Nat.zero_le _) (by omega)

lemma controlK_spec (n : Nat) : n + controlK n + 1 ≤ 2 ^ controlK n := by
  rw [controlK_eq_kmin]; exact kmin_spec n

lemma controlK_pos (n : Nat) (hn : 1 ≤ n) : 1 ≤ controlK n := by
  rw [controlK_eq_kmin]
  by_contra h
  have h0 : kmin n = 0 := by omega
  have := kmin_spec n
  rw [h0] at this
  simp at this
  omega

lemma get_control_bits_length (n : Nat) :
    (get_control_bits n).length = controlK n := by
  simp [get_control_bits]

/-! ### C3: the control-bit tuple -/

/-- C3: for every block length `n ≥ 1`, `get_control_bits n` is the
ascending tuple `(2^0, …, 2^(k-1))` where `k` is the minimal parity
count with `2^k ≥ n + k + 1`; in particular
`get_control_bits 8 = (1, 2, 4, 8)`. -/
theorem control_bits_spec (n : Nat) (_hn : 1 ≤ n) :
    get_control_bits n
      = (List.range ((get_control_bits n).length)).map (2 ^ ·) ∧
    n + (get_control_bits n).length + 1 ≤ 2 ^ (get_control_bits n).length ∧
    (∀ j, n + j + 1 ≤ 2 ^ j → (get_control_bits n).length ≤ j) ∧
    get_control_bits 8 = [1, 2, 4, 8] := by
  refine ⟨by rw [get_control_bits_length]; rfl, ?_, ?_, by decide⟩
  · rw [get_control_bits_length]
    exact controlK_spec n
  · intro j hj
    rw [get_control_bits_length, controlK_eq_kmin]
    exact kmin_min n j hj

theorem control_bits_spec_witness :
    1 ≤ 8 ∧ (get_control_bits 8).length = 4 ∧ get_control_bits 8 = [1, 2, 4, 8] :=
  ⟨by decide, by decide, (control_bits_spec 8 (by decide)).2.2.2⟩

/-! ### C7: determinism and monotonicity -/

/-- C7: `get_control_bits` is a pure function of `n` (equal inputs give
identical tuples), and the parity count `k = (get_control_bits n).length`
is monotone non-decreasing in `n`. -/
theorem control_bits_deterministic_mono :
    (∀ n₁ n₂ : Nat, n₁ = n₂ → get_control_bits n₁ = get_control_bits n₂) ∧
    (∀ n₁ n₂ : Nat, 1 ≤ n₁ → n₁ ≤ n₂ →
      (get_control_bits n₁).length ≤ (get_control_bits n₂).length) := by
  refine ⟨fun n₁ n₂ h => by rw [h], fun n₁ n₂ _ h => ?_⟩
  rw [get_control_bits_length, get_control_bits_length,
    controlK_eq_kmin, controlK_eq_kmin]
  apply kmin_min
  have := kmin_spec n₂
  omega

theorem control_bits_deterministic_mono_witness :
    get_control_bits 8 = get_control_bits 8 ∧
    (get_control_bits 5).length ≤ (get_control_bits 9).length :=
  ⟨control_bits_deterministic_mono.1 8 8 rfl,
    control_bits_deterministic_mono.2 5 9 (by decide) (by decide)⟩

/-! ### C9: the fixed-point loop terminates -/

/-- C9: for every `n ≥ 1` the `while` loop of `get_control_bits`
reaches, within `n + 2` iterations, a `k` satisfying the exit condition
`2^k ≥ n + k + 1`; giving the loop any more fuel does not change the
result, so the function is total. -/
theorem control_loop_terminates (n : Nat) (_hn : 1 ≤ n) :
    n + controlK n + 1 ≤ 2 ^ controlK n ∧
    ∀ fuel, n + 2 ≤ fuel → controlLoop n fuel 0 = controlK n := by
  refine ⟨controlK_spec n, fun fuel hf => ?_⟩
  rw [controlK_eq_kmin]
  have := kmin_le n
  exact controlLoop_eq_kmin n fuel 0 (Nat.zero_le _) (by omega)

theorem control_loop_terminates_witness :
    1 ≤ 8 ∧ controlLoop 8 50 0 = controlK 8 :=
  ⟨by decide, (control_loop_terminates 8 (by decide)).2 50 (by decide)⟩

/-! ### C10: block lengths 1..7 make the encoder fail -/

/-- C10: for block lengths `1 ≤ n ≤ 7` the character-group size
`delta = n // 8` is `0`, and `hamming_encode` fails (Python's
`range(0, len, 0)` raises `ValueError`) instead of returning an encoded
string. -/
theorem small_block_length_encode_fails (text : List Nat) (n : Nat)
    (h1 : 1 ≤ n) (h7 : n ≤ 7) :
    n / 8 = 0 ∧ hamming_encode text n = none := by
  have hd : n / 8 = 0 := Nat.div_eq_of_lt (by omega)
  refine ⟨hd, ?_⟩
  simp only [hamming_encode]
  split
  · rfl
  · rw [hd]
    simp [wrap]

theorem small_block_length_encode_fails_witness :
    1 ≤ 4 ∧ 4 ≤ 7 ∧ (4 / 8 = 0 ∧ hamming_encode [65] 4 = none) :=
  ⟨by decide, by decide, small_block_length_encode_fails [65] 4 (by decide) (by decide)⟩

end Hamming

namespace Hamming

/-! ### Chunking lemmas for `wrap` -/

lemma ceilDiv_succ (L c : Nat) (hc : 0 < c) (hL : 0 < L) :
    (L + c - 1) / c = (L - c + c - 1) / c + 1 := by
  rcases le_or_lt L c with hLc | hLc
  · have h0 : L - c = 0 := by omega
    rw [h0]
    have h1 : (0 + c - 1) / c = 0 := Nat.div_eq_of_lt (by omega)
    rw [h1]
    exact Nat.div_eq_of_lt_le (by omega) (by omega)
  · have h2 : L - c + c - 1 = L - 1 := by omega
    have h3 : L + c - 1 = L - 1 + c := by omega
    rw [h2, h3]
    exact Nat.add_div_right _ hc

lemma chunksGo_nil (c : Nat) : chunksGo ([] : List α) c = [] := by
  unfold chunksGo
  rcases Nat.eq_zero_or_pos c with rfl | hc
  · simp
  · have h : (List.length ([] : List α) + c - 1) / c = 0 := by
      simp only [List.length_nil]
      exact Nat.div_eq_of_lt (by omega)
    rw [h]
    simp

lemma chunksGo_cons {l : List α} {c : Nat} (hc : 0 < c) (hl : l ≠ []) :
    chunksGo l c = l.take c :: chunksGo (l.drop c) c := by
  have hL : 0 < l.length := List.length_pos.mpr hl
  unfold chunksGo
  rw [List.length_drop, ceilDiv_succ l.length c hc hL, List.range_succ_eq_map]
  simp only [List.map_cons, List.map_map]
  congr 1
  · simp
  · apply List.map_congr_left
    intro i _
    simp only [Function.comp_apply, List.drop_drop, Nat.succ_mul]
    rw [Nat.add_comm]

lemma chunksGo_flatten_le {c : Nat} (hc : 0 < c) :
    ∀ (N : Nat) (l : List α), l.length ≤ N → (chunksGo l c).flatten = l := by
  intro N
  induction N with
  | zero =>
    intro l h
    have hl : l = [] := List.length_eq_zero.mp (Nat.le_zero.mp h)
    subst hl
    rw [chunksGo_nil]
    rfl
  | succ N ih =>
    intro l h
    rcases eq_or_ne l [] with rfl | hne
    · rw [chunksGo_nil]; rfl
    · have hL : 0 < l.length := List.length_pos.mpr hne
      rw [chunksGo_cons hc hne, List.flatten_cons,
        ih (l.drop c) (by rw [List.length_drop]; omega)]
      exact List.take_append_drop c l

lemma chunksGo_flatten {c : Nat} (hc : 0 < c) (l : List α) :
    (chunksGo l c).flatten = l :=
  chunksGo_flatten_le hc l.length l (Nat.le_refl _)

lemma chunksGo_dropLast_le {c : Nat} (hc : 0 < c) :
    ∀ (N : Nat) (l : List α), l.length ≤ N →
      ∀ ch ∈ (chunksGo l c).dropLast, ch.length = c := by
  intro N
  induction N with
  | zero =>
    intro l h
    have hl : l = [] := List.length_eq_zero.mp (Nat.le_zero.mp h)
    subst hl
    rw [chunksGo_nil]
    intro ch hch
    simp at hch
  | succ N ih =>
    intro l h ch hch
    rcases eq_or_ne l [] with rfl | hne
    · rw [chunksGo_nil] at hch; simp at hch
    · have hL : 0 < l.length := List.length_pos.mpr hne
      rw [chunksGo_cons hc hne] at hch
      rcases le_or_lt l.length c with hlc | hlc
      · have hdrop : l.drop c = [] := List.drop_eq_nil_of_le hlc
        rw [hdrop, chunksGo_nil] at hch
        simp at hch
      · have hdne : l.drop c ≠ [] := by
          intro hd
          have := congrArg List.length hd
          simp at this
          omega
        have hcne : chunksGo (l.drop c) c ≠ [] := by
          rw [chunksGo_cons hc hdne]
          simp
        rw [List.dropLast_cons_of_ne_nil hcne] at hch
        rcases List.mem_cons.mp hch with rfl | hch'
        · rw [List.length_take]
          omega
        · exact ih (l.drop c) (by rw [List.length_drop]; omega) ch hch'

lemma chunksGo_full_le {c : Nat} (hc : 0 < c) :
    ∀ (N : Nat) (l : List α), l.length ≤ N → l.length % c = 0 →
      ∀ ch ∈ chunksGo l c, ch.length = c := by
  intro N
  induction N with
  | zero =>
    intro l h _
    have hl : l = [] := List.length_eq_zero.mp (Nat.le_zero.mp h)
    subst hl
    rw [chunksGo_nil]
    intro ch hch
    simp at hch
  | succ N ih =>
    intro l h hmod ch hch
    rcases eq_or_ne l [] with rfl | hne
    · rw [chunksGo_nil] at hch; simp at hch
    · have hL : 0 < l.length := List.length_pos.mpr hne
      have hcl : c ≤ l.length := by
        rcases le_or_lt c l.length with h' | h'
        · exact h'
        · exfalso
          rw [Nat.mod_eq_of_lt h'] at hmod
          omega
      rw [chunksGo_cons hc hne] at hch
      rcases List.mem_cons.mp hch with rfl | hch'
      · rw [List.length_take]
        omega
      · have hdm : (l.drop c).length % c = 0 := by
          rw [List.length_drop]
          have he : l.length = l.length - c + c := by omega
          rw [he, Nat.add_mod_right] at hmod
          exact hmod
        exact ih (l.drop c) (by rw [List.length_drop]; omega) hdm ch hch'

lemma chunksGo_last_le {c : Nat} (hc : 0 < c) :
    ∀ (N : Nat) (l : List α), l.length ≤ N → l.length % c ≠ 0 →
      ∃ last, (chunksGo l c).getLast? = some last ∧ last.length = l.length % c := by
  intro N
  induction N with
  | zero =>
    intro l h hmod
    exfalso
    have hl : l = [] := List.length_eq_zero.mp (Nat.le_zero.mp h)
    subst hl
    simp at hmod
  | succ N ih =>
    intro l h hmod
    have hne : l ≠ [] := by
      intro hl
      subst hl
      simp at hmod
    have hL : 0 < l.length := List.length_pos.mpr hne
    rw [chunksGo_cons hc hne]
    rcases le_or_lt l.length c with hlc | hlc
    · have hlt : l.length < c := by
        rcases Nat.lt_or_ge l.length c with h' | h'
        · exact h'
        · exfalso
          have : l.length = c := by omega
          rw [this, Nat.mod_self] at hmod
          omega
      have hdrop : l.drop c = [] := List.drop_eq_nil_of_le hlc
      rw [hdrop, chunksGo_nil]
      refine ⟨l.take c, rfl, ?_⟩
      rw [List.length_take, Nat.mod_eq_of_lt hlt]
      omega
    · have hdne : l.drop c ≠ [] := by
        intro hd
        have := congrArg List.length hd
        simp at this
        omega
      have hdm : (l.drop c).length % c ≠ 0 := by
        rw [List.length_drop]
        have he : l.length = l.length - c + c := by omega
        rw [he, Nat.add_mod_right] at hmod
        exact hmod
      obtain ⟨last, hlast, hlen⟩ :=
        ih (l.drop c) (by rw [List.length_drop]; omega) hdm
      refine ⟨last, ?_, ?_⟩
      · rw [chunksGo_cons hc hdne] at hlast ⊢
        rw [List.getLast?_cons_cons]
        exact hlast
      · rw [hlen, List.length_drop]
        have he : l.length = l.length - c + c := by omega
        conv_rhs => rw [he]
        rw [Nat.add_mod_right]

/-! ### C8: the segmenter splits into chunks of size `c` -/

/-- C8: for chunk size `c > 0`, `wrap l c` succeeds and returns
contiguous chunks whose concatenation is `l`; every chunk except
possibly the last has length `c`; when `c` divides `l.length` all
chunks (and there is then no short trailing chunk) have length `c`,
otherwise the final chunk has length `l.length % c`. -/
theorem wrap_spec (l : List α) (c : Nat) (hc : 0 < c) :
    ∃ cs, wrap l c = some cs ∧
      cs.flatten = l ∧
      (∀ ch ∈ cs.dropLast, ch.length = c) ∧
      (l.length % c = 0 → ∀ ch ∈ cs, ch.length = c) ∧
      (l.length % c ≠ 0 →
        ∃ last, cs.getLast? = some last ∧ last.length = l.length % c) := by
  refine ⟨chunksGo l c, ?_, chunksGo_flatten hc l,
    chunksGo_dropLast_le hc l.length l (Nat.le_refl _),
    fun hm => chunksGo_full_le hc l.length l (Nat.le_refl _) hm,
    fun hm => chunksGo_last_le hc l.length l (Nat.le_refl _) hm⟩
  unfold wrap
  rw [if_neg (by omega)]

theorem wrap_spec_witness :
    (0 < 3) ∧ ∃ cs, wrap [1, 2, 3, 4, 5, 6, 7] 3 = some cs ∧
      cs.flatten = [1, 2, 3, 4, 5, 6, 7] ∧
      (∀ ch ∈ cs.dropLast, ch.length = 3) ∧
      (([1, 2, 3, 4, 5, 6, 7] : List Nat).length % 3 = 0 →
        ∀ ch ∈ cs, ch.length = 3) ∧
      (([1, 2, 3, 4, 5, 6, 7] : List Nat).length % 3 ≠ 0 →
        ∃ last, cs.getLast? = some last ∧
          last.length = ([1, 2, 3, 4, 5, 6, 7] : List Nat).length % 3) :=
  ⟨by decide, wrap_spec [1, 2, 3, 4, 5, 6, 7] 3 (by decide)⟩

end Hamming

namespace Hamming

/-! ### Parity-check matrix lemmas -/

lemma padRow_length (k idx : Nat) :
    (padRow k idx).length = max (bitsLE idx).length k := by
  unfold padRow
  rw [List.length_append, List.length_replicate]
  omega

lemma padRow_getD (k idx r : Nat) : (padRow k idx).getD r 0 = idx / 2 ^ r % 2 := by
  unfold padRow
  rw [List.getD_eq_getElem?_getD]
  rcases lt_or_ge r (bitsLE idx).length with h | h
  · rw [List.getElem?_append_left h, ← List.getD_eq_getElem?_getD]
    exact bitsLE_getD idx r
  · rw [List.getElem?_append_right h]
    have hidx : idx < 2 ^ r := by
      have h1 : idx < 2 ^ (bitsLE idx).length :=
        (bitsLE_length_le idx _).mp (Nat.le_refl _)
      have h2 : 2 ^ (bitsLE idx).length ≤ 2 ^ r := Nat.pow_le_pow_right (by omega) h
      omega
    rw [Nat.div_eq_of_lt hidx, List.getElem?_replicate]
    split <;> simp

lemma matrix_rows_ok (n k : Nat) (h : n + k < 2 ^ k) :
    ((List.range (n + k)).map (fun i => padRow k (i + 1))).all
      (fun row => row.length == k) = true := by
  rw [List.all_eq_true]
  intro row hrow
  rw [List.mem_map] at hrow
  obtain ⟨i, hi, rfl⟩ := hrow
  rw [List.mem_range] at hi
  have hlen : (bitsLE (i + 1)).length ≤ k := (bitsLE_length_le _ k).mpr (by omega)
  rw [beq_iff_eq, padRow_length]
  omega

lemma get_matrix_transform_eq (n k : Nat) (h : n + k < 2 ^ k) :
    get_matrix_transform n k
      = some (transposeK k ((List.range (n + k)).map (fun i => padRow k (i + 1)))) := by
  simp only [get_matrix_transform]
  rw [if_pos (matrix_rows_ok n k h)]

lemma transposeK_getD (k : Nat) (rows : List (List Nat)) (r : Nat) (hr : r < k) :
    (transposeK k rows).getD r [] = rows.map (fun row => row.getD r 0) := by
  unfold transposeK
  rw [List.getD_eq_getElem?_getD, List.getElem?_map, List.getElem?_range hr]
  rfl

lemma transposeK_length (k : Nat) (rows : List (List Nat)) :
    (transposeK k rows).length = k := by
  unfold transposeK
  rw [List.length_map, List.length_range]

lemma matrix_entry (n k : Nat) (r : Nat) (hr : r < k) (j : Nat) :
    ((transposeK k (hammingRows n k)).getD r []).getD j 0
      = if j < n + k then (j + 1) / 2 ^ r % 2 else 0 := by
  unfold hammingRows
  rw [transposeK_getD k _ r hr, List.map_map, List.getD_eq_getElem?_getD,
    List.getElem?_map]
  rcases lt_or_ge j (n + k) with hj | hj
  · rw [List.getElem?_range hj, if_pos hj]
    simp only [Option.map_some', Option.getD_some, Function.comp_apply]
    exact padRow_getD k (j + 1) r
  · rw [if_neg (by omega)]
    have : (List.range (n + k))[j]? = none := by
      rw [List.getElem?_eq_none_iff]
      rw [List.length_range]
      omega
    rw [this]
    rfl

lemma two_pow_div_two_pow_mod (i r : Nat) :
    2 ^ i / 2 ^ r % 2 = if r = i then 1 else 0 := by
  rcases lt_trichotomy r i with h | rfl | h
  · rw [if_neg (by omega), Nat.pow_div (by omega) (by omega)]
    have he : 2 ^ (i - r) = 2 * 2 ^ (i - r - 1) := by
      rw [← pow_succ']
      congr 1
      omega
    rw [he, Nat.mul_mod_right]
  · rw [if_pos rfl, Nat.div_self (Nat.two_pow_pos r)]
  · rw [if_neg (by omega)]
    have hlt : 2 ^ i < 2 ^ r := Nat.pow_lt_pow_right (by omega) h
    rw [Nat.div_eq_of_lt hlt]

/-! ### C4: structure of the parity-check matrix -/

/-- C4: with `k` the parity count derived from block length `n ≥ 1`,
`get_matrix_transform n k` is a `k`-row by `(n+k)`-column binary matrix
whose column `j` (1-indexed) is the `k`-bit binary representation of
`j`, least-significant bit in row 0; hence each parity position `2^i`
gives a column with exactly one set bit, located at row `i`. -/
theorem matrix_transform_spec (n : Nat) (hn : 1 ≤ n) :
    ∃ M, get_matrix_transform n (get_control_bits n).length = some M ∧
      M.length = (get_control_bits n).length ∧
      (∀ row ∈ M, row.length = n + (get_control_bits n).length) ∧
      (∀ r < (get_control_bits n).length,
        ∀ j, 1 ≤ j → j ≤ n + (get_control_bits n).length →
          (M.getD r []).getD (j - 1) 0 = j / 2 ^ r % 2) ∧
      (∀ i < (get_control_bits n).length, ∀ r < (get_control_bits n).length,
        (M.getD r []).getD (2 ^ i - 1) 0 = if r = i then 1 else 0) := by
  rw [get_control_bits_length]
  set k := controlK n with hk
  have hnk : n + k < 2 ^ k := by
    have h2 := controlK_spec n
    rw [← hk] at h2
    omega
  refine ⟨transposeK k (hammingRows n k), get_matrix_transform_eq n k hnk,
    transposeK_length k _, ?_, ?_, ?_⟩
  · intro row hrow
    unfold transposeK at hrow
    rw [List.mem_map] at hrow
    obtain ⟨r, _, rfl⟩ := hrow
    rw [List.length_map]
    unfold hammingRows
    rw [List.length_map, List.length_range]
  · intro r hr j hj1 hj2
    rw [matrix_entry n k r hr (j - 1), if_pos (by omega)]
    congr 2
    omega
  · intro i hi r hr
    have hpow : 2 ^ i ≤ n + i := by
      have := lt_kmin_not_good n i (by rw [← controlK_eq_kmin, ← hk]; omega)
      omega
    rw [matrix_entry n k r hr (2 ^ i - 1), if_pos (by omega)]
    have he : 2 ^ i - 1 + 1 = 2 ^ i := by
      have := Nat.two_pow_pos i
      omega
    rw [he]
    exact two_pow_div_two_pow_mod i r

theorem matrix_transform_spec_witness :
    1 ≤ 8 ∧ ∃ M, get_matrix_transform 8 (get_control_bits 8).length = some M ∧
      M.length = (get_control_bits 8).length ∧
      (∀ row ∈ M, row.length = 8 + (get_control_bits 8).length) ∧
      (∀ r < (get_control_bits 8).length,
        ∀ j, 1 ≤ j → j ≤ 8 + (get_control_bits 8).length →
          (M.getD r []).getD (j - 1) 0 = j / 2 ^ r % 2) ∧
      (∀ i < (get_control_bits 8).length, ∀ r < (get_control_bits 8).length,
        (M.getD r []).getD (2 ^ i - 1) 0 = if r = i then 1 else 0) :=
  ⟨by decide, matrix_transform_spec 8 (by decide)⟩

end Hamming

namespace Hamming

/-! ### List surgery: insertion, overwriting, erasure -/

lemma insertZero_length (s : List Nat) (p : Nat) :
    (insertZero s p).length = s.length + 1 := by
  unfold insertZero
  rw [List.length_append, List.length_cons, List.length_take, List.length_drop]
  omega

lemma insertPlaceholders_length (cb : List Nat) :
    ∀ s, (insertPlaceholders cb s).length = s.length + cb.length := by
  induction cb with
  | nil => intro s; rfl
  | cons p cb ih =>
    intro s
    show (insertPlaceholders cb (insertZero s p)).length = _
    rw [ih, insertZero_length, List.length_cons]
    omega

lemma setBits_length (pcs : List (Nat × Nat)) :
    ∀ s, (setBits pcs s).length = s.length := by
  induction pcs with
  | nil => intro s; rfl
  | cons pc pcs ih =>
    intro s
    show (setBits pcs (s.set (pc.1 - 1) pc.2)).length = _
    rw [ih, List.length_set]

lemma getD_set_ne (l : List Nat) (i j a : Nat) (h : i ≠ j) :
    (l.set i a).getD j 0 = l.getD j 0 := by
  rw [List.getD_eq_getElem?_getD, List.getD_eq_getElem?_getD,
    List.getElem?_set_ne h]

lemma getD_set_self (l : List Nat) (i a : Nat) (h : i < l.length) :
    (l.set i a).getD i 0 = a := by
  rw [List.getD_eq_getElem?_getD, List.getElem?_set_self h]
  rfl

lemma insertZero_getD_lt (s : List Nat) (p j : Nat) (hp : p - 1 ≤ s.length)
    (h : j < p - 1) : (insertZero s p).getD j 0 = s.getD j 0 := by
  unfold insertZero
  rw [List.getD_eq_getElem?_getD,
    List.getElem?_append_left (by rw [List.length_take]; omega),
    List.getElem?_take_of_lt h, ← List.getD_eq_getElem?_getD]

lemma insertZero_getD_self (s : List Nat) (p : Nat) (hp : p - 1 ≤ s.length) :
    (insertZero s p).getD (p - 1) 0 = 0 := by
  unfold insertZero
  rw [List.getD_eq_getElem?_getD,
    List.getElem?_append_right (by rw [List.length_take]; omega)]
  have h : p - 1 - (s.take (p - 1)).length = 0 := by rw [List.length_take]; omega
  rw [h]
  simp

lemma insertZero_getD_gt (s : List Nat) (p j : Nat) (hp : p - 1 ≤ s.length)
    (h : p - 1 < j) : (insertZero s p).getD j 0 = s.getD (j - 1) 0 := by
  unfold insertZero
  rw [List.getD_eq_getElem?_getD,
    List.getElem?_append_right (by rw [List.length_take]; omega)]
  have h1 : j - (s.take (p - 1)).length = (j - (p - 1) - 1) + 1 := by
    rw [List.length_take]; omega
  rw [h1, List.getElem?_cons_succ, List.getElem?_drop, ← List.getD_eq_getElem?_getD]
  congr 1
  omega

lemma eraseIdx_set_self (l : List Nat) : ∀ (i : Nat) (a : Nat),
    (l.set i a).eraseIdx i = l.eraseIdx i := by
  induction l with
  | nil => intro i a; rfl
  | cons x l ih =>
    intro i a
    cases i with
    | zero => rfl
    | succ i =>
      show x :: (l.set i a).eraseIdx i = x :: l.eraseIdx i
      rw [ih]

lemma insertZero_cons (x : Nat) (s : List Nat) (p : Nat) (hp : 2 ≤ p) :
    insertZero (x :: s) p = x :: insertZero s (p - 1) := by
  obtain ⟨q, rfl⟩ : ∃ q, p = q + 2 := ⟨p - 2, by omega⟩
  unfold insertZero
  have h1 : q + 2 - 1 = q + 1 := by omega
  have h2 : q + 1 - 1 = q := by omega
  rw [h1, h2, List.take_succ_cons, List.drop_succ_cons]
  rfl

lemma set_insertZero_comm (s : List Nat) : ∀ (p j a : Nat), j < p - 1 → j < s.length →
    (insertZero s p).set j a = insertZero (s.set j a) p := by
  induction s with
  | nil => intro p j a _ hjs; simp at hjs
  | cons x s ih =>
    intro p j a hj hjs
    have hp : 2 ≤ p := by omega
    rw [insertZero_cons x s p hp]
    cases j with
    | zero =>
      show a :: insertZero s (p - 1) = insertZero (a :: s) p
      rw [insertZero_cons a s p hp]
    | succ j =>
      show x :: (insertZero s (p - 1)).set j a = insertZero (x :: s.set j a) p
      rw [insertZero_cons x (s.set j a) p hp,
        ih (p - 1) j a (by omega) (by simp at hjs; omega)]

end Hamming

namespace Hamming

lemma setBits_getD_of_ne (pcs : List (Nat × Nat)) :
    ∀ s j, (∀ pc ∈ pcs, pc.1 - 1 ≠ j) → (setBits pcs s).getD j 0 = s.getD j 0 := by
  induction pcs with
  | nil => intro s j _; rfl
  | cons pc pcs ih =>
    intro s j h
    show (setBits pcs (s.set (pc.1 - 1) pc.2)).getD j 0 = _
    rw [ih _ j (fun q hq => h q (List.mem_cons_of_mem _ hq)),
      getD_set_ne _ _ _ _ (h pc (List.mem_cons_self _ _))]

lemma eraseIdx_insertZero (s : List Nat) (p : Nat) (hp : p - 1 ≤ s.length) :
    (insertZero s p).eraseIdx (p - 1) = s := by
  unfold insertZero
  rw [List.eraseIdx_append_of_length_le (by rw [List.length_take]; omega)]
  have h : p - 1 - (s.take (p - 1)).length = 0 := by rw [List.length_take]; omega
  rw [h, List.eraseIdx_cons_zero, List.take_append_drop]

lemma setBits_insertZero_comm (pcs : List (Nat × Nat)) :
    ∀ (s : List Nat) (p : Nat),
      (∀ pc ∈ pcs, pc.1 - 1 < p - 1 ∧ pc.1 - 1 < s.length) →
      setBits pcs (insertZero s p) = insertZero (setBits pcs s) p := by
  induction pcs with
  | nil => intro s p _; rfl
  | cons pc pcs ih =>
    intro s p h
    obtain ⟨h1, h2⟩ := h pc (List.mem_cons_self _ _)
    show setBits pcs ((insertZero s p).set (pc.1 - 1) pc.2) = _
    rw [set_insertZero_comm s p (pc.1 - 1) pc.2 h1 h2,
      ih (s.set (pc.1 - 1) pc.2) p (fun q hq =>
        ⟨(h q (List.mem_cons_of_mem _ hq)).1, by
          rw [List.length_set]
          exact (h q (List.mem_cons_of_mem _ hq)).2⟩)]
    rfl

lemma insertPlaceholders_pow_length (n k : Nat) (d : List Nat) (hd : d.length = n) :
    (insertPlaceholders ((List.range k).map (2 ^ ·)) d).length = n + k := by
  rw [insertPlaceholders_length, hd, List.length_map, List.length_range]

lemma insertPlaceholders_pow_parity (n : Nat) (d : List Nat) (hd : d.length = n) :
    ∀ k, (∀ i, i < k → 2 ^ i ≤ n + i + 1) →
      ∀ i, i < k →
        (insertPlaceholders ((List.range k).map (2 ^ ·)) d).getD (2 ^ i - 1) 0
          = 0 := by
  intro k
  induction k with
  | zero => intro _ i hi; omega
  | succ k ih =>
    intro hval i hi
    rw [List.range_succ, List.map_append]
    simp only [List.map_cons, List.map_nil]
    have hins : insertPlaceholders
        ((List.range k).map (2 ^ ·) ++ [2 ^ k]) d
        = insertZero (insertPlaceholders ((List.range k).map (2 ^ ·)) d)
            (2 ^ k) := by
      unfold insertPlaceholders
      rw [List.foldl_append]
      rfl
    rw [hins]
    have hXlen := insertPlaceholders_pow_length n k d hd
    have hbound : 2 ^ k - 1 ≤
        (insertPlaceholders ((List.range k).map (2 ^ ·)) d).length := by
      rw [hXlen]
      have := hval k (by omega)
      omega
    rcases Nat.lt_or_ge i k with hik | hik
    · have hlt : 2 ^ i - 1 < 2 ^ k - 1 := by
        have h1 : 2 ^ i < 2 ^ k := Nat.pow_lt_pow_right (by omega) hik
        have h2 := Nat.two_pow_pos i
        omega
      rw [insertZero_getD_lt _ _ _ hbound hlt]
      exact ih (fun j hj => hval j (by omega)) i hik
    · have hik' : i = k := by omega
      subst hik'
      exact insertZero_getD_self _ _ hbound

lemma strip_set_insert (n : Nat) (d : List Nat) (hd : d.length = n) :
    ∀ k, (∀ i, i < k → 2 ^ i ≤ n + i + 1) →
      ∀ rs : List Nat, rs.length = k →
        stripControl ((List.range k).map (2 ^ ·))
          (setBits (((List.range k).map (2 ^ ·)).zip rs)
            (insertPlaceholders ((List.range k).map (2 ^ ·)) d)) = d := by
  intro k
  induction k with
  | zero =>
    intro _ rs hrs
    have hrs0 : rs = [] := List.length_eq_zero.mp hrs
    subst hrs0
    simp [insertPlaceholders, setBits, stripControl]
  | succ k ih =>
    intro hval rs hrs
    have hne : rs ≠ [] := by intro h; subst h; simp at hrs
    obtain ⟨rs', v, hrseq, hrs'⟩ :
        ∃ rs' v, rs = rs' ++ [v] ∧ rs'.length = k :=
      ⟨rs.dropLast, rs.getLast hne, (List.dropLast_append_getLast hne).symm, by
        rw [List.length_dropLast, hrs]
        omega⟩
    subst hrseq
    rw [List.range_succ, List.map_append]
    simp only [List.map_cons, List.map_nil]
    set cb := (List.range k).map (2 ^ ·) with hcb
    set X := insertPlaceholders cb d with hX
    have hXlen : X.length = n + k := insertPlaceholders_pow_length n k d hd
    have hins : insertPlaceholders (cb ++ [2 ^ k]) d = insertZero X (2 ^ k) := by
      rw [hX, hcb]
      unfold insertPlaceholders
      rw [List.foldl_append]
      rfl
    rw [hins]
    have hzip : (cb ++ [2 ^ k]).zip (rs' ++ [v]) = cb.zip rs' ++ [(2 ^ k, v)] := by
      rw [List.zip_append (by rw [hcb, List.length_map, List.length_range, hrs'])]
      rfl
    rw [hzip]
    have hsb : setBits (cb.zip rs' ++ [(2 ^ k, v)]) (insertZero X (2 ^ k))
        = (setBits (cb.zip rs') (insertZero X (2 ^ k))).set (2 ^ k - 1) v := by
      unfold setBits
      rw [List.foldl_append]
      rfl
    rw [hsb]
    have hcomm : setBits (cb.zip rs') (insertZero X (2 ^ k))
        = insertZero (setBits (cb.zip rs') X) (2 ^ k) := by
      apply setBits_insertZero_comm
      intro pc hpc
      obtain ⟨hpc1, _⟩ := List.of_mem_zip hpc
      rw [hcb, List.mem_map] at hpc1
      obtain ⟨i, hi, hpc1e⟩ := hpc1
      rw [List.mem_range] at hi
      rw [← hpc1e]
      constructor
      · have hpow : 2 ^ i < 2 ^ k := Nat.pow_lt_pow_right (by omega) hi
        have h1 := Nat.two_pow_pos i
        omega
      · have h2 := hval i (by omega)
        have h1 := Nat.two_pow_pos i
        rw [hXlen]
        omega
    rw [hcomm]
    have hstrip : ∀ t, stripControl (cb ++ [2 ^ k]) t
        = stripControl cb (t.eraseIdx (2 ^ k - 1)) := by
      intro t
      unfold stripControl
      rw [List.reverse_append]
      rfl
    rw [hstrip, eraseIdx_set_self,
      eraseIdx_insertZero _ _ (by
        rw [setBits_length, hXlen]
        have := hval k (by omega)
        omega)]
    exact ih (fun i hi => hval i (by omega)) rs' hrs'

end Hamming

namespace Hamming

/-! ### Bit and character value lemmas -/

lemma bitsToNatLE_bitsLE (m : Nat) : bitsToNatLE (bitsLE m) = m := by
  induction m using Nat.strong_induction_on with
  | _ m ih =>
    rcases Nat.eq_zero_or_pos m with rfl | hm
    · rfl
    · obtain ⟨m', rfl⟩ : ∃ m', m = m' + 1 := ⟨m - 1, by omega⟩
      rw [bitsLE_succ]
      show (m' + 1) % 2 + 2 * bitsToNatLE (bitsLE ((m' + 1) / 2)) = m' + 1
      rw [ih ((m' + 1) / 2) (by omega)]
      omega

lemma bitsToNatBE_append_singleton (l : List Nat) (b : Nat) :
    bitsToNatBE (l ++ [b]) = 2 * bitsToNatBE l + b := by
  unfold bitsToNatBE
  rw [List.foldl_append]
  rfl

lemma bitsToNatBE_reverse (l : List Nat) :
    bitsToNatBE l.reverse = bitsToNatLE l := by
  induction l with
  | nil => rfl
  | cons b bs ih =>
    rw [List.reverse_cons, bitsToNatBE_append_singleton, ih]
    show _ = b + 2 * bitsToNatLE bs
    omega

lemma bitsToNatBE_replicate_zero_append (t : Nat) (l : List Nat) :
    bitsToNatBE (List.replicate t 0 ++ l) = bitsToNatBE l := by
  unfold bitsToNatBE
  rw [List.foldl_append]
  congr 1
  induction t with
  | zero => rfl
  | succ t ih =>
    rw [List.replicate_succ]
    show List.foldl _ (2 * 0 + 0) (List.replicate t 0) = 0
    exact ih

lemma bitsToNatBE_charToBits (c : Nat) : bitsToNatBE (charToBits c) = c := by
  unfold charToBits
  rw [bitsToNatBE_replicate_zero_append, bitsToNatBE_reverse, bitsToNatLE_bitsLE]

lemma charToBits_length (c : Nat) (hc : c < 256) : (charToBits c).length = 8 := by
  unfold charToBits
  rw [List.length_append, List.length_replicate, List.length_reverse]
  have h := (bitsLE_length_le c 8).mpr (by omega)
  omega

lemma bitsLE_le_one (m : Nat) : ∀ b ∈ bitsLE m, b ≤ 1 := by
  induction m using Nat.strong_induction_on with
  | _ m ih =>
    rcases Nat.eq_zero_or_pos m with rfl | hm
    · intro b hb; simp [bitsLE_zero] at hb
    · obtain ⟨m', rfl⟩ : ∃ m', m = m' + 1 := ⟨m - 1, by omega⟩
      rw [bitsLE_succ]
      intro b hb
      rcases List.mem_cons.mp hb with rfl | hb'
      · omega
      · exact ih ((m' + 1) / 2) (by omega) b hb'

lemma charToBits_le_one (c : Nat) : ∀ b ∈ charToBits c, b ≤ 1 := by
  intro b hb
  unfold charToBits at hb
  rcases List.mem_append.mp hb with h | h
  · rw [List.eq_of_mem_replicate h]
    omega
  · exact bitsLE_le_one c b (List.mem_reverse.mp h)

lemma foldl_append_eq_flatten (f : α → List β) (l : List α) :
    ∀ init, l.foldl (fun acc c => acc ++ f c) init = init ++ (l.map f).flatten := by
  induction l with
  | nil => intro init; simp
  | cons x xs ih =>
    intro init
    show xs.foldl _ (init ++ f x) = _
    rw [ih]
    simp [List.append_assoc]

lemma chunksGo_flatten_uniform {c : Nat} (hc : 0 < c) (L : List (List α))
    (h : ∀ x ∈ L, x.length = c) : chunksGo L.flatten c = L := by
  induction L with
  | nil => rw [List.flatten_nil]; exact chunksGo_nil c
  | cons x xs ih =>
    have hx : x.length = c := h x (List.mem_cons_self _ _)
    have hne : (x :: xs).flatten ≠ [] := by
      rw [List.flatten_cons]
      intro hcon
      have hx0 : x = [] := (List.append_eq_nil.mp hcon).1
      rw [hx0] at hx
      simp at hx
      omega
    rw [chunksGo_cons hc hne, List.flatten_cons,
      List.take_left' hx, List.drop_left' hx,
      ih (fun y hy => h y (List.mem_cons_of_mem _ hy))]

lemma mapMOpt_eq_some (f : α → Option β) (g : α → β) :
    ∀ l : List α, (∀ x ∈ l, f x = some (g x)) → mapMOpt f l = some (l.map g) := by
  intro l
  induction l with
  | nil => intro _; rfl
  | cons x xs ih =>
    intro h
    show (match f x, mapMOpt f xs with
      | some y, some ys => some (y :: ys)
      | _, _ => none) = _
    rw [h x (List.mem_cons_self _ _), ih (fun y hy => h y (List.mem_cons_of_mem _ hy))]
    rfl

lemma insertZero_mem (s : List Nat) (p : Nat) :
    ∀ b ∈ insertZero s p, b ∈ s ∨ b = 0 := by
  intro b hb
  unfold insertZero at hb
  rcases List.mem_append.mp hb with h | h
  · exact Or.inl (List.take_subset _ _ h)
  · rcases List.mem_cons.mp h with rfl | h'
    · exact Or.inr rfl
    · exact Or.inl (List.drop_subset _ _ h')

lemma insertPlaceholders_le_one (cb : List Nat) :
    ∀ s, (∀ b ∈ s, b ≤ 1) → ∀ b ∈ insertPlaceholders cb s, b ≤ 1 := by
  induction cb with
  | nil => intro s hs; exact hs
  | cons p cb ih =>
    intro s hs
    show ∀ b ∈ insertPlaceholders cb (insertZero s p), b ≤ 1
    apply ih
    intro b hb
    rcases insertZero_mem s p b hb with h | rfl
    · exact hs b h
    · omega

lemma setBits_le_one (pcs : List (Nat × Nat)) :
    ∀ s, (∀ pc ∈ pcs, pc.2 ≤ 1) → (∀ b ∈ s, b ≤ 1) →
      ∀ b ∈ setBits pcs s, b ≤ 1 := by
  induction pcs with
  | nil => intro s _ hs; exact hs
  | cons pc pcs ih =>
    intro s hv hs
    show ∀ b ∈ setBits pcs (s.set (pc.1 - 1) pc.2), b ≤ 1
    apply ih
    · intro q hq; exact hv q (List.mem_cons_of_mem _ hq)
    · intro b hb
      rcases List.mem_or_eq_of_mem_set hb with h | rfl
      · exact hs b h
      · exact hv pc (List.mem_cons_self _ _)

lemma syndromeOf_le_one (M : List (List Nat)) (v : List Nat) :
    ∀ b ∈ syndromeOf M v, b ≤ 1 := by
  intro b hb
  unfold syndromeOf at hb
  rw [List.mem_map] at hb
  obtain ⟨row, _, rfl⟩ := hb
  have := Nat.mod_lt ((List.zipWith (· * ·) row v).sum) (show 0 < 2 by omega)
  omega

lemma syndromeOf_length (M : List (List Nat)) (v : List Nat) :
    (syndromeOf M v).length = M.length := List.length_map _ _

end Hamming

namespace Hamming

/-! ### Reading codeword positions and syndrome values -/

lemma getD_mem_of_lt (l : List Nat) (i : Nat) (h : i < l.length) :
    l.getD i 0 ∈ l := by
  rw [List.getD_eq_getElem?_getD, List.getElem?_eq_getElem h]
  simp only [Option.getD_some]
  exact List.getElem_mem h

lemma setBits_zip_pow_getD (k : Nat) :
    ∀ (rs s : List Nat), rs.length = k → (∀ i, i < k → 2 ^ i - 1 < s.length) →
      ∀ i, i < k →
        (setBits (((List.range k).map (2 ^ ·)).zip rs) s).getD (2 ^ i - 1) 0
          = rs.getD i 0 := by
  induction k with
  | zero => intro rs s _ _ i hi; omega
  | succ k ih =>
    intro rs s hrs hbound i hi
    have hne : rs ≠ [] := by intro h; subst h; simp at hrs
    obtain ⟨rs', v, hrseq, hrs'⟩ :
        ∃ rs' v, rs = rs' ++ [v] ∧ rs'.length = k :=
      ⟨rs.dropLast, rs.getLast hne, (List.dropLast_append_getLast hne).symm, by
        rw [List.length_dropLast, hrs]
        omega⟩
    subst hrseq
    rw [List.range_succ, List.map_append]
    simp only [List.map_cons, List.map_nil]
    have hzip : ((List.range k).map (2 ^ ·) ++ [2 ^ k]).zip (rs' ++ [v])
        = ((List.range k).map (2 ^ ·)).zip rs' ++ [(2 ^ k, v)] := by
      rw [List.zip_append (by rw [List.length_map, List.length_range, hrs'])]
      rfl
    rw [hzip]
    have hsb : setBits (((List.range k).map (2 ^ ·)).zip rs' ++ [(2 ^ k, v)]) s
        = (setBits (((List.range k).map (2 ^ ·)).zip rs') s).set (2 ^ k - 1) v := by
      unfold setBits
      rw [List.foldl_append]
      rfl
    rw [hsb]
    rcases Nat.lt_or_ge i k with hik | hik
    · have hne2 : 2 ^ k - 1 ≠ 2 ^ i - 1 := by
        have h1 : 2 ^ i < 2 ^ k := Nat.pow_lt_pow_right (by omega) hik
        have h2 := Nat.two_pow_pos i
        omega
      rw [getD_set_ne _ _ _ _ hne2,
        ih rs' s hrs' (fun j hj => hbound j (by omega)) i hik,
        List.getD_eq_getElem?_getD, List.getD_eq_getElem?_getD,
        List.getElem?_append_left (by rw [hrs']; omega)]
    · have hik' : i = k := by omega
      subst hik'
      rw [getD_set_self _ _ _ (by rw [setBits_length]; exact hbound i hi)]
      rw [List.getD_eq_getElem?_getD,
        List.getElem?_append_right (by rw [hrs']),
        hrs']
      simp

lemma bitsToNatLE_eq_zero (l : List Nat)
    (h : ∀ r, r < l.length → l.getD r 0 = 0) : bitsToNatLE l = 0 := by
  induction l with
  | nil => rfl
  | cons b bs ih =>
    have hb : b = 0 := h 0 (by simp)
    have hbs : bitsToNatLE bs = 0 := by
      apply ih
      intro r hr
      have := h (r + 1) (by simp; omega)
      rwa [List.getD_cons_succ] at this
    show b + 2 * bitsToNatLE bs = 0
    omega

lemma mod_pow_succ_decomp (p t : Nat) :
    p % 2 ^ (t + 1) = p % 2 + 2 * (p / 2 % 2 ^ t) := by
  have h1 : 2 ^ (t + 1) = 2 * 2 ^ t := by rw [pow_succ]; ring
  have h2 : p = 2 * (p / 2) + p % 2 := by omega
  conv_lhs => rw [h1, h2]
  rw [Nat.add_mod, Nat.mul_mod_mul_left]
  have hb : p % 2 % (2 * 2 ^ t) = p % 2 := by
    apply Nat.mod_eq_of_lt
    have := Nat.two_pow_pos t
    omega
  rw [hb]
  have hlt : p / 2 % 2 ^ t < 2 ^ t := Nat.mod_lt _ (Nat.two_pow_pos t)
  rw [Nat.mod_eq_of_lt (by omega)]
  omega

lemma bitsToNatLE_of_getD (l : List Nat) : ∀ (p : Nat),
    (∀ r, r < l.length → l.getD r 0 = p / 2 ^ r % 2) →
    bitsToNatLE l = p % 2 ^ l.length := by
  induction l with
  | nil => intro p _; simp [bitsToNatLE, Nat.mod_one]
  | cons b bs ih =>
    intro p h
    have hb : b = p % 2 := by
      have := h 0 (by simp)
      simpa using this
    have hbs : bitsToNatLE bs = (p / 2) % 2 ^ bs.length := by
      apply ih
      intro r hr
      have hh := h (r + 1) (by simp; omega)
      rw [List.getD_cons_succ] at hh
      rw [hh]
      congr 1
      rw [Nat.div_div_eq_div_mul]
      congr 1
      rw [pow_succ]
      ring
    show b + 2 * bitsToNatLE bs = p % 2 ^ (bs.length + 1)
    rw [hb, hbs, mod_pow_succ_decomp]

end Hamming

namespace Hamming

lemma zipWith_map_range_sum (m : Nat) :
    ∀ (f : Nat → Nat) (v : List Nat), v.length = m →
      (List.zipWith (· * ·) ((List.range m).map f) v).sum
        = ∑ j ∈ Finset.range m, f j * v.getD j 0 := by
  induction m with
  | zero =>
    intro f v hv
    have hv0 : v = [] := List.length_eq_zero.mp hv
    subst hv0
    simp
  | succ m ih =>
    intro f v hv
    cases v with
    | nil => simp at hv
    | cons a v' =>
      rw [List.range_succ_eq_map, List.map_cons, List.zipWith_cons_cons,
        List.sum_cons, List.map_map,
        ih (f ∘ Nat.succ) v' (by simpa using hv),
        Finset.sum_range_succ' (fun j => f j * (a :: v').getD j 0) m]
      simp only [List.getD_cons_succ, List.getD_cons_zero, Function.comp_apply,
        Nat.succ_eq_add_one]
      omega

lemma syndromeOf_getD_eq (n k r : Nat) (hr : r < k) (v : List Nat)
    (hv : v.length = n + k) :
    (syndromeOf (transposeK k (hammingRows n k)) v).getD r 0
      = (∑ j ∈ Finset.range (n + k), ((j + 1) / 2 ^ r % 2) * v.getD j 0) % 2 := by
  unfold syndromeOf
  rw [List.getD_eq_getElem?_getD, List.getElem?_map]
  have hM : (transposeK k (hammingRows n k))[r]?
      = some ((hammingRows n k).map (fun row => row.getD r 0)) := by
    unfold transposeK
    rw [List.getElem?_map, List.getElem?_range hr]
    rfl
  rw [hM]
  simp only [Option.map_some', Option.getD_some]
  have hrows : (hammingRows n k).map (fun row => row.getD r 0)
      = (List.range (n + k)).map (fun j => (j + 1) / 2 ^ r % 2) := by
    unfold hammingRows
    rw [List.map_map]
    apply List.map_congr_left
    intro j _
    simp only [Function.comp_apply]
    exact padRow_getD k (j + 1) r
  rw [hrows, zipWith_map_range_sum (n + k) _ v hv]

lemma parity_image_subset (n k : Nat)
    (hval : ∀ i, i < k → 2 ^ i ≤ n + i + 1) :
    (Finset.range k).image (fun i => 2 ^ i - 1) ⊆ Finset.range (n + k) := by
  intro j hj
  rw [Finset.mem_image] at hj
  obtain ⟨i, hi, rfl⟩ := hj
  rw [Finset.mem_range] at hi ⊢
  have := hval i hi
  have h2 := Nat.two_pow_pos i
  omega

lemma parity_image_inj (k : Nat) : ∀ x ∈ Finset.range k, ∀ y ∈ Finset.range k,
    2 ^ x - 1 = 2 ^ y - 1 → x = y := by
  intro x _ y _ h
  have hx := Nat.two_pow_pos x
  have hy := Nat.two_pow_pos y
  have hpow : (2 : Nat) ^ x = 2 ^ y := by omega
  exact Nat.pow_right_injective (by omega) hpow

/-- Splitting a syndrome sum over parity positions and data positions. -/
lemma sum_split_parity (n k : Nat)
    (hval : ∀ i, i < k → 2 ^ i ≤ n + i + 1) (g : Nat → Nat) :
    ∑ j ∈ Finset.range (n + k), g j
      = (∑ i ∈ Finset.range k, g (2 ^ i - 1))
        + ∑ j ∈ (Finset.range (n + k)).filter
            (fun j => j ∉ (Finset.range k).image (fun i => 2 ^ i - 1)), g j := by
  have hsub := parity_image_subset n k hval
  have hsplit := Finset.sum_filter_add_sum_filter_not (Finset.range (n + k))
    (fun j => j ∈ (Finset.range k).image (fun i => 2 ^ i - 1)) g
  have hfilter : (Finset.range (n + k)).filter
      (fun j => j ∈ (Finset.range k).image (fun i => 2 ^ i - 1))
      = (Finset.range k).image (fun i => 2 ^ i - 1) := by
    rw [Finset.filter_mem_eq_inter]
    exact Finset.inter_eq_right.mpr hsub
  rw [hfilter] at hsplit
  rw [← hsplit, Finset.sum_image (parity_image_inj k)]

end Hamming

namespace Hamming

/-- The freshly computed codeword has syndrome zero in every row: the
parity values overwritten at positions `2^i` cancel the data parity. -/
lemma encode_codeword_syndrome_zero (n k : Nat)
    (hval : ∀ i, i < k → 2 ^ i ≤ n + i + 1)
    (d : List Nat) (hd : d.length = n) (r : Nat) (hr : r < k) :
    (syndromeOf (transposeK k (hammingRows n k))
      (setBits ((((List.range k).map (2 ^ ·))).zip
          (syndromeOf (transposeK k (hammingRows n k))
            (insertPlaceholders ((List.range k).map (2 ^ ·)) d)))
        (insertPlaceholders ((List.range k).map (2 ^ ·)) d))).getD r 0 = 0 := by
  set cb := (List.range k).map (2 ^ ·) with hcb
  set M := transposeK k (hammingRows n k) with hM
  set c0 := insertPlaceholders cb d with hc0
  set rs := syndromeOf M c0 with hrs
  set cw := setBits (cb.zip rs) c0 with hcw
  have hc0len : c0.length = n + k := insertPlaceholders_pow_length n k d hd
  have hcwlen : cw.length = n + k := by rw [hcw, setBits_length, hc0len]
  have hrslen : rs.length = k := by
    rw [hrs, syndromeOf_length, hM, transposeK_length]
  have hbound : ∀ i, i < k → 2 ^ i - 1 < n + k := by
    intro i hi
    have h1 := hval i hi
    have h2 := Nat.two_pow_pos i
    omega
  have hcwpar : ∀ i, i < k → cw.getD (2 ^ i - 1) 0 = rs.getD i 0 := by
    intro i hi
    rw [hcw]
    exact setBits_zip_pow_getD k rs c0 hrslen
      (fun j hj => by rw [hc0len]; exact hbound j hj) i hi
  have hc0par : ∀ i, i < k → c0.getD (2 ^ i - 1) 0 = 0 := by
    intro i hi
    rw [hc0]
    exact insertPlaceholders_pow_parity n d hd k hval i hi
  have hsame : ∀ j, j ∉ (Finset.range k).image (fun i => 2 ^ i - 1) →
      cw.getD j 0 = c0.getD j 0 := by
    intro j hj
    rw [hcw]
    apply setBits_getD_of_ne
    intro pc hpc
    obtain ⟨hpc1, _⟩ := List.of_mem_zip hpc
    rw [hcb, List.mem_map] at hpc1
    obtain ⟨i, hi, hpe⟩ := hpc1
    rw [List.mem_range] at hi
    intro hcon
    apply hj
    rw [Finset.mem_image]
    refine ⟨i, Finset.mem_range.mpr hi, ?_⟩
    rw [hpe, hcon]
  have hScw := sum_split_parity n k hval
    (fun j => ((j + 1) / 2 ^ r % 2) * cw.getD j 0)
  have hSc0 := sum_split_parity n k hval
    (fun j => ((j + 1) / 2 ^ r % 2) * c0.getD j 0)
  have hparcw : (∑ i ∈ Finset.range k,
      ((2 ^ i - 1 + 1) / 2 ^ r % 2) * cw.getD (2 ^ i - 1) 0) = rs.getD r 0 := by
    have hterm : ∀ i ∈ Finset.range k,
        ((2 ^ i - 1 + 1) / 2 ^ r % 2) * cw.getD (2 ^ i - 1) 0
          = if r = i then rs.getD i 0 else 0 := by
      intro i hi
      rw [Finset.mem_range] at hi
      have he : 2 ^ i - 1 + 1 = 2 ^ i := by have := Nat.two_pow_pos i; omega
      rw [he, two_pow_div_two_pow_mod, hcwpar i hi]
      split
      · rw [Nat.one_mul]
      · rw [Nat.zero_mul]
    rw [Finset.sum_congr rfl hterm, Finset.sum_ite_eq,
      if_pos (Finset.mem_range.mpr hr)]
  have hparc0 : (∑ i ∈ Finset.range k,
      ((2 ^ i - 1 + 1) / 2 ^ r % 2) * c0.getD (2 ^ i - 1) 0) = 0 := by
    apply Finset.sum_eq_zero
    intro i hi
    rw [Finset.mem_range] at hi
    rw [hc0par i hi, Nat.mul_zero]
  have hdata : (∑ j ∈ (Finset.range (n + k)).filter
        (fun j => j ∉ (Finset.range k).image (fun i => 2 ^ i - 1)),
        ((j + 1) / 2 ^ r % 2) * cw.getD j 0)
      = ∑ j ∈ (Finset.range (n + k)).filter
        (fun j => j ∉ (Finset.range k).image (fun i => 2 ^ i - 1)),
        ((j + 1) / 2 ^ r % 2) * c0.getD j 0 := by
    apply Finset.sum_congr rfl
    intro j hj
    rw [Finset.mem_filter] at hj
    rw [hsame j hj.2]
  have hrsval : rs.getD r 0
      = (∑ j ∈ Finset.range (n + k), ((j + 1) / 2 ^ r % 2) * c0.getD j 0) % 2 := by
    rw [hrs, hM]
    exact syndromeOf_getD_eq n k r hr c0 hc0len
  have hentry : (syndromeOf M cw).getD r 0
      = (∑ j ∈ Finset.range (n + k), ((j + 1) / 2 ^ r % 2) * cw.getD j 0) % 2 := by
    rw [hM]
    exact syndromeOf_getD_eq n k r hr cw hcwlen
  rw [hentry, hScw, hparcw, hdata, hrsval, hSc0, hparc0]
  omega

/-- Flipping bit `p` of a zero-syndrome codeword makes syndrome row `r`
read off bit `r` of `p`. -/
lemma flip_syndrome_entry (n k : Nat) (w : List Nat) (hw : w.length = n + k)
    (hbits : ∀ b ∈ w, b ≤ 1)
    (hz : ∀ r, r < k →
      (syndromeOf (transposeK k (hammingRows n k)) w).getD r 0 = 0)
    (p : Nat) (hp1 : 1 ≤ p) (hp2 : p ≤ n + k) (r : Nat) (hr : r < k) :
    (syndromeOf (transposeK k (hammingRows n k)) (flipAt p w)).getD r 0
      = p / 2 ^ r % 2 := by
  have hplt : p - 1 < n + k := by omega
  have hflen : (flipAt p w).length = n + k := by
    rw [flipAt, List.length_set, hw]
  have hentry := syndromeOf_getD_eq n k r hr (flipAt p w) hflen
  have hwentry := syndromeOf_getD_eq n k r hr w hw
  rw [hz r hr] at hwentry
  have hsplitF : (∑ j ∈ (Finset.range (n + k)).erase (p - 1),
        ((j + 1) / 2 ^ r % 2) * (flipAt p w).getD j 0)
      + ((p - 1 + 1) / 2 ^ r % 2) * (flipAt p w).getD (p - 1) 0
      = ∑ j ∈ Finset.range (n + k),
          ((j + 1) / 2 ^ r % 2) * (flipAt p w).getD j 0 :=
    Finset.sum_erase_add (Finset.range (n + k)) _ (Finset.mem_range.mpr hplt)
  have hsplitW : (∑ j ∈ (Finset.range (n + k)).erase (p - 1),
        ((j + 1) / 2 ^ r % 2) * w.getD j 0)
      + ((p - 1 + 1) / 2 ^ r % 2) * w.getD (p - 1) 0
      = ∑ j ∈ Finset.range (n + k), ((j + 1) / 2 ^ r % 2) * w.getD j 0 :=
    Finset.sum_erase_add (Finset.range (n + k)) _ (Finset.mem_range.mpr hplt)
  have hsame : ∀ j ∈ (Finset.range (n + k)).erase (p - 1),
      ((j + 1) / 2 ^ r % 2) * (flipAt p w).getD j 0
        = ((j + 1) / 2 ^ r % 2) * w.getD j 0 := by
    intro j hj
    have hne : p - 1 ≠ j := (Finset.ne_of_mem_erase hj).symm
    rw [flipAt, getD_set_ne _ _ _ _ hne]
  have hx : w.getD (p - 1) 0 ≤ 1 :=
    hbits _ (getD_mem_of_lt w (p - 1) (by omega))
  have hflip : (flipAt p w).getD (p - 1) 0 = w.getD (p - 1) 0 ^^^ 1 := by
    rw [flipAt, getD_set_self _ _ _ (by omega)]
  have hbv : (p - 1 + 1) / 2 ^ r % 2 = p / 2 ^ r % 2 := by
    congr 2
    omega
  have hcalc : (∑ j ∈ Finset.range (n + k),
        ((j + 1) / 2 ^ r % 2) * (flipAt p w).getD j 0)
      = (∑ j ∈ (Finset.range (n + k)).erase (p - 1),
          ((j + 1) / 2 ^ r % 2) * w.getD j 0)
        + (p / 2 ^ r % 2) * (w.getD (p - 1) 0 ^^^ 1) := by
    rw [← hsplitF, Finset.sum_congr rfl hsame, hflip, hbv]
  have hcalcW : (∑ j ∈ Finset.range (n + k),
        ((j + 1) / 2 ^ r % 2) * w.getD j 0)
      = (∑ j ∈ (Finset.range (n + k)).erase (p - 1),
          ((j + 1) / 2 ^ r % 2) * w.getD j 0)
        + (p / 2 ^ r % 2) * w.getD (p - 1) 0 := by
    rw [← hsplitW, hbv]
  rw [hcalcW] at hwentry
  rw [hentry, hcalc]
  have hB : p / 2 ^ r % 2 ≤ 1 := by
    have := Nat.mod_lt (p / 2 ^ r) (show 0 < 2 by omega)
    omega
  obtain hx0 | hx1 : w.getD (p - 1) 0 = 0 ∨ w.getD (p - 1) 0 = 1 := by omega
  · rw [hx0] at hwentry ⊢
    rw [Nat.zero_xor]
    omega
  · rw [hx1] at hwentry ⊢
    rw [Nat.xor_self]
    omega

end Hamming

namespace Hamming

lemma controlK_val (n : Nat) : ∀ i, i < controlK n → 2 ^ i ≤ n + i + 1 := by
  intro i hi
  have h := lt_kmin_not_good n i (by rw [← controlK_eq_kmin]; omega)
  omega

lemma set_getD_eq_self (l : List Nat) : ∀ i, i < l.length →
    l.set i (l.getD i 0) = l := by
  induction l with
  | nil => intro i hi; simp at hi
  | cons x xs ih =>
    intro i hi
    cases i with
    | zero => rfl
    | succ i =>
      show x :: xs.set i (xs.getD i 0) = x :: xs
      rw [ih i (by simp at hi; omega)]

lemma flatten_length_uniform (c : Nat) (L : List (List α))
    (h : ∀ x ∈ L, x.length = c) : L.flatten.length = L.length * c := by
  induction L with
  | nil => simp
  | cons x xs ih =>
    rw [List.flatten_cons, List.length_append, List.length_cons,
      h x (List.mem_cons_self _ _), ih (fun y hy => h y (List.mem_cons_of_mem _ hy))]
    ring

/-- The encoder's per-block body, written out: left-zero-pad the data
bits to `n`, insert placeholders, overwrite the parity positions. -/
lemma hamming_encode_block_eq (n k : Nat) (g : List Nat)
    (hglen : ((g.map charToBits).flatten).length ≤ n) :
    hamming_encode_block (transposeK k (hammingRows n k))
        ((List.range k).map (2 ^ ·)) n g
      = some (setBits ((((List.range k).map (2 ^ ·))).zip
          (syndromeOf (transposeK k (hammingRows n k))
            (insertPlaceholders ((List.range k).map (2 ^ ·))
              (List.replicate (n - ((g.map charToBits).flatten).length) 0
                ++ (g.map charToBits).flatten))))
        (insertPlaceholders ((List.range k).map (2 ^ ·))
          (List.replicate (n - ((g.map charToBits).flatten).length) 0
            ++ (g.map charToBits).flatten))) := by
  have hfold : g.foldl (fun acc c => acc ++ charToBits c) []
      = (g.map charToBits).flatten := by
    rw [foldl_append_eq_flatten]
    rfl
  have hdlen : (List.replicate (n - ((g.map charToBits).flatten).length) 0
      ++ (g.map charToBits).flatten).length = n := by
    rw [List.length_append, List.length_replicate]
    omega
  have hblen : (insertPlaceholders ((List.range k).map (2 ^ ·))
      (List.replicate (n - ((g.map charToBits).flatten).length) 0
        ++ (g.map charToBits).flatten)).length
      = n + ((List.range k).map (2 ^ ·)).length := by
    rw [insertPlaceholders_length, hdlen]
  simp only [hamming_encode_block, hfold]
  by_cases hLn : ((g.map charToBits).flatten).length = n
  · rw [if_neg (show ¬(((g.map charToBits).flatten).length ≠ n) by omega)]
    have hrep : List.replicate (n - ((g.map charToBits).flatten).length) 0
        ++ (g.map charToBits).flatten = (g.map charToBits).flatten := by
      rw [hLn, Nat.sub_self, List.replicate_zero, List.nil_append]
    rw [hrep]
    rw [if_pos (show (insertPlaceholders ((List.range k).map (2 ^ ·))
        ((g.map charToBits).flatten)).length
        = n + ((List.range k).map (2 ^ ·)).length by
      rw [insertPlaceholders_length, hLn])]
  · rw [if_pos (show ((g.map charToBits).flatten).length ≠ n from hLn),
      if_pos hblen]

/-- Structural properties of an encoded block: its length, that it is a
bit string, that stripping the parity bits recovers the padded data,
and that its syndrome vanishes. -/
lemma codeword_properties (n k : Nat)
    (hval : ∀ i, i < k → 2 ^ i ≤ n + i + 1)
    (d c0 cw : List Nat) (hd : d.length = n) (hdbits : ∀ b ∈ d, b ≤ 1)
    (hc0 : c0 = insertPlaceholders ((List.range k).map (2 ^ ·)) d)
    (hcw : cw = setBits ((((List.range k).map (2 ^ ·))).zip
      (syndromeOf (transposeK k (hammingRows n k)) c0)) c0) :
    cw.length = n + k ∧ (∀ b ∈ cw, b ≤ 1) ∧
    stripControl ((List.range k).map (2 ^ ·)) cw = d ∧
    (∀ r, r < k →
      (syndromeOf (transposeK k (hammingRows n k)) cw).getD r 0 = 0) ∧
    bitsToNatLE (syndromeOf (transposeK k (hammingRows n k)) cw) = 0 := by
  have hc0len : c0.length = n + k := by
    rw [hc0]
    exact insertPlaceholders_pow_length n k d hd
  have hrslen : (syndromeOf (transposeK k (hammingRows n k)) c0).length = k := by
    rw [syndromeOf_length, transposeK_length]
  have hcwlen : cw.length = n + k := by
    rw [hcw, setBits_length, hc0len]
  have hz : ∀ r, r < k →
      (syndromeOf (transposeK k (hammingRows n k)) cw).getD r 0 = 0 := by
    intro r hr
    rw [hcw, hc0]
    exact encode_codeword_syndrome_zero n k hval d hd r hr
  refine ⟨hcwlen, ?_, ?_, hz, ?_⟩
  · rw [hcw]
    apply setBits_le_one
    · intro pc hpc
      obtain ⟨_, hpc2⟩ := List.of_mem_zip hpc
      exact syndromeOf_le_one _ _ _ hpc2
    · rw [hc0]
      apply insertPlaceholders_le_one
      exact hdbits
  · rw [hcw, hc0]
    apply strip_set_insert n d hd k hval
    rw [syndromeOf_length, transposeK_length]
  · apply bitsToNatLE_eq_zero
    intro r hr
    apply hz
    rw [syndromeOf_length, transposeK_length] at hr
    exact hr

/-- A zero-syndrome or out-of-range-syndrome block decodes by stripping
the parity bits from the unmodified block. -/
lemma decode_block_pass_through (n k : Nat) (hk : 1 ≤ k) (cw : List Nat)
    (hlen : cw.length = n + k)
    (h : bitsToNatLE (syndromeOf (transposeK k (hammingRows n k)) cw) = 0 ∨
      n + k ≤ bitsToNatLE (syndromeOf (transposeK k (hammingRows n k)) cw)) :
    hamming_decode_block (transposeK k (hammingRows n k))
        ((List.range k).map (2 ^ ·)) n cw
      = some ((chunksGo (stripControl ((List.range k).map (2 ^ ·)) cw) 8).map
          bitsToNatBE) := by
  have hcbl : ((List.range k).map (2 ^ ·)).length = k := by
    rw [List.length_map, List.length_range]
  simp only [hamming_decode_block, hcbl]
  rw [if_pos (by omega), if_neg (by omega)]
  rcases h with h0 | hge
  · rw [if_pos h0]
    simp only [wrap]
    rw [if_neg (by omega)]
    rfl
  · rw [if_neg (by omega), if_neg (by omega)]
    simp only [wrap]
    rw [if_neg (by omega)]
    rfl

end Hamming

namespace Hamming

/-- Decoding a single-bit-flipped zero-syndrome codeword takes the
correction branch and restores the codeword before stripping. -/
lemma decode_block_corrects (n k : Nat) (hk : 1 ≤ k)
    (cw : List Nat) (hlen : cw.length = n + k) (hbits : ∀ b ∈ cw, b ≤ 1)
    (hz : ∀ r, r < k →
      (syndromeOf (transposeK k (hammingRows n k)) cw).getD r 0 = 0)
    (hnk : n + k < 2 ^ k)
    (p : Nat) (hp1 : 1 ≤ p) (hp2 : p < n + k) :
    hamming_decode_block (transposeK k (hammingRows n k))
        ((List.range k).map (2 ^ ·)) n (flipAt p cw)
      = some ((chunksGo (stripControl ((List.range k).map (2 ^ ·)) cw) 8).map
          bitsToNatBE) := by
  have hcbl : ((List.range k).map (2 ^ ·)).length = k := by
    rw [List.length_map, List.length_range]
  have hflen : (flipAt p cw).length = n + k := by
    rw [flipAt, List.length_set, hlen]
  have hsl : (syndromeOf (transposeK k (hammingRows n k))
      (flipAt p cw)).length = k := by
    rw [syndromeOf_length, transposeK_length]
  have hsval : bitsToNatLE (syndromeOf (transposeK k (hammingRows n k))
      (flipAt p cw)) = p := by
    rw [bitsToNatLE_of_getD _ p (by
      rw [hsl]
      exact fun r hr =>
        flip_syndrome_entry n k cw hlen hbits hz p hp1 (by omega) r hr), hsl]
    exact Nat.mod_eq_of_lt (by omega)
  have hundo : (flipAt p cw).set (p - 1) ((flipAt p cw).getD (p - 1) 0 ^^^ 1)
      = cw := by
    rw [flipAt, getD_set_self _ _ _ (by omega), List.set_set,
      Nat.xor_assoc, Nat.xor_self, Nat.xor_zero]
    exact set_getD_eq_self cw (p - 1) (by omega)
  simp only [hamming_decode_block, hcbl, hsval]
  rw [if_pos hflen, if_neg (by omega), if_neg (by omega), if_pos (by omega),
    hundo]
  simp only [wrap]
  rw [if_neg (by omega)]
  rfl

lemma wrap_pos (l : List α) (c : Nat) (hc : 0 < c) :
    wrap l c = some (chunksGo l c) := by
  unfold wrap
  rw [if_neg (by omega)]

lemma hamming_encode_eq_of (text : List Nat) (n : Nat) (M : List (List Nat))
    (hM : get_matrix_transform n (get_control_bits n).length = some M)
    (hδ : 0 < n / 8) :
    hamming_encode text n
      = (mapMOpt (hamming_encode_block M (get_control_bits n) n)
          (chunksGo text (n / 8))).map List.flatten := by
  simp only [hamming_encode, hM, wrap_pos text (n / 8) hδ]

lemma hamming_decode_eq_of (bits : List Nat) (n : Nat) (M : List (List Nat))
    (hM : get_matrix_transform n (get_control_bits n).length = some M)
    (hpos : 0 < n + (get_control_bits n).length) :
    hamming_decode bits n
      = (mapMOpt (hamming_decode_block M (get_control_bits n) n)
          (chunksGo bits (n + (get_control_bits n).length))).map List.flatten := by
  simp only [hamming_decode, hM,
    wrap_pos bits (n + (get_control_bits n).length) hpos]

lemma get_matrix_transform_controlK (n : Nat) :
    get_matrix_transform n (get_control_bits n).length
      = some (transposeK (controlK n) (hammingRows n (controlK n))) := by
  rw [get_control_bits_length]
  have h := get_matrix_transform_eq n (controlK n) (by
    have := controlK_spec n
    omega)
  rw [h]
  rfl

lemma chunksGo_subset (l : List α) (c : Nat) :
    ∀ ch ∈ chunksGo l c, ∀ x ∈ ch, x ∈ l := by
  intro ch hch x hx
  unfold chunksGo at hch
  rw [List.mem_map] at hch
  obtain ⟨i, _, rfl⟩ := hch
  exact List.drop_subset _ _ (List.take_subset _ _ hx)

end Hamming

namespace Hamming

lemma chunksGo_length_le (l : List α) (c : Nat) :
    ∀ ch ∈ chunksGo l c, ch.length ≤ c := by
  intro ch hch
  unfold chunksGo at hch
  rw [List.mem_map] at hch
  obtain ⟨i, _, rfl⟩ := hch
  rw [List.length_take]
  omega

lemma group_bits_length (n δ : Nat) (hδ : n = 8 * δ) (g : List Nat)
    (hg : ∀ c ∈ g, c < 256) (hglen : g.length ≤ δ) :
    ((g.map charToBits).flatten).length = 8 * g.length ∧
    ((g.map charToBits).flatten).length ≤ n := by
  have h : ((g.map charToBits).flatten).length = (g.map charToBits).length * 8 := by
    apply flatten_length_uniform
    intro x hx
    rw [List.mem_map] at hx
    obtain ⟨c, hc, rfl⟩ := hx
    exact charToBits_length c (hg c hc)
  rw [h, List.length_map]
  omega

lemma dOf_spec (n : Nat) (g : List Nat)
    (hle : ((g.map charToBits).flatten).length ≤ n) :
    (List.replicate (n - ((g.map charToBits).flatten).length) 0
      ++ (g.map charToBits).flatten).length = n ∧
    (∀ b ∈ List.replicate (n - ((g.map charToBits).flatten).length) 0
      ++ (g.map charToBits).flatten, b ≤ 1) := by
  constructor
  · rw [List.length_append, List.length_replicate]
    omega
  · intro b hb
    rcases List.mem_append.mp hb with h | h
    · rw [List.eq_of_mem_replicate h]
      omega
    · rw [List.mem_flatten] at h
      obtain ⟨x, hx, hbx⟩ := h
      rw [List.mem_map] at hx
      obtain ⟨c, _, rfl⟩ := hx
      exact charToBits_le_one c b hbx

/-- `hamming_encode` succeeds on 8-bit text with a byte-aligned block
length, producing one codeword per character group. -/
lemma encode_produces_blocks (T : List Nat) (n : Nat) (hn : 0 < n)
    (hn8 : 8 ∣ n) (hchars : ∀ c ∈ T, c < 256) :
    hamming_encode T n = some (((chunksGo T (n / 8)).map (fun g =>
      setBits ((((List.range (controlK n)).map (2 ^ ·))).zip
        (syndromeOf (transposeK (controlK n) (hammingRows n (controlK n)))
          (insertPlaceholders ((List.range (controlK n)).map (2 ^ ·))
            (List.replicate (n - ((g.map charToBits).flatten).length) 0
              ++ (g.map charToBits).flatten))))
      (insertPlaceholders ((List.range (controlK n)).map (2 ^ ·))
        (List.replicate (n - ((g.map charToBits).flatten).length) 0
          ++ (g.map charToBits).flatten)))).flatten) := by
  obtain ⟨δ, hδ⟩ := hn8
  have hδpos : 0 < δ := by omega
  have hdiv8 : n / 8 = δ := by
    rw [hδ]
    exact Nat.mul_div_cancel_left δ (by omega)
  rw [hamming_encode_eq_of T n _ (get_matrix_transform_controlK n)
    (by rw [hdiv8]; exact hδpos)]
  rw [mapMOpt_eq_some _ _ _ (fun g hg => by
    show hamming_encode_block _ (get_control_bits n) n g = _
    have hcb : get_control_bits n = (List.range (controlK n)).map (2 ^ ·) := rfl
    rw [hcb]
    apply hamming_encode_block_eq
    have hgsub : ∀ c ∈ g, c < 256 := fun c hc =>
      hchars c (chunksGo_subset T (n / 8) g hg c hc)
    have hglen : g.length ≤ δ := by
      rw [← hdiv8]
      exact chunksGo_length_le T (n / 8) g hg
    exact (group_bits_length n δ hδ g hgsub hglen).2)]
  rfl

end Hamming

namespace Hamming

lemma ceil_div_mul (m b : Nat) (hm : 0 < m) (hb : 0 < b) :
    ∀ a, (m * a + (m * b - 1)) / (m * b) = (a + (b - 1)) / b := by
  intro a
  induction a using Nat.strong_induction_on with
  | _ a ih =>
    have hmb := Nat.mul_pos hm hb
    rcases Nat.lt_or_ge a 1 with ha | ha
    · have ha0 : a = 0 := by omega
      subst ha0
      rw [Nat.mul_zero, Nat.zero_add, Nat.zero_add,
        Nat.div_eq_of_lt (by omega), Nat.div_eq_of_lt (by omega)]
    · rcases Nat.lt_or_ge a b with hab | hab
      · have hmaub : m * (a + 1) ≤ m * b := Nat.mul_le_mul_left m (by omega)
        rw [Nat.mul_succ] at hmaub
        have hma : m * 1 ≤ m * a := Nat.mul_le_mul_left m (by omega)
        rw [Nat.mul_one] at hma
        have h1 : (m * a + (m * b - 1)) / (m * b) = 1 :=
          Nat.div_eq_of_lt_le (by omega) (by omega)
        have h2 : (a + (b - 1)) / b = 1 :=
          Nat.div_eq_of_lt_le (by omega) (by omega)
        rw [h1, h2]
      · have hsplit : m * a = m * (a - b) + m * b := by
          have hab2 : a - b + b = a := by omega
          calc m * a = m * (a - b + b) := by rw [hab2]
          _ = m * (a - b) + m * b := Nat.mul_add m (a - b) b
        have hstep : m * a + (m * b - 1) = (m * (a - b) + (m * b - 1)) + m * b := by
          omega
        have hstep2 : a + (b - 1) = (a - b + (b - 1)) + b := by omega
        rw [hstep, hstep2, Nat.add_div_right _ hmb, Nat.add_div_right _ hb,
          ih (a - b) (by omega)]

/-- C6 (amended): for 8-bit characters and a positive block length that
is a multiple of 8, `hamming_encode` returns a '0'/'1' string of length
`ceil(len(text) * 8 / block_length) * (block_length + k)`. -/
theorem encode_length (T : List Nat) (n : Nat) (hn : 0 < n) (hn8 : 8 ∣ n)
    (hchars : ∀ c ∈ T, c < 256) :
    ∃ out, hamming_encode T n = some out ∧ (∀ b ∈ out, b ≤ 1) ∧
      out.length
        = ((T.length * 8 + (n - 1)) / n) * (n + (get_control_bits n).length) := by
  obtain ⟨δ, hδ⟩ := hn8
  have hδpos : 0 < δ := by omega
  have hdiv8 : n / 8 = δ := by
    rw [hδ]
    exact Nat.mul_div_cancel_left δ (by omega)
  have hprops : ∀ g ∈ chunksGo T (n / 8),
      ∀ blkP : List Nat,
        blkP = setBits ((((List.range (controlK n)).map (2 ^ ·))).zip
          (syndromeOf (transposeK (controlK n) (hammingRows n (controlK n)))
            (insertPlaceholders ((List.range (controlK n)).map (2 ^ ·))
              (List.replicate (n - ((g.map charToBits).flatten).length) 0
                ++ (g.map charToBits).flatten))))
          (insertPlaceholders ((List.range (controlK n)).map (2 ^ ·))
            (List.replicate (n - ((g.map charToBits).flatten).length) 0
              ++ (g.map charToBits).flatten)) →
        blkP.length = n + controlK n ∧ (∀ b ∈ blkP, b ≤ 1) := by
    intro g hg blkP hblkP
    have hgsub : ∀ c ∈ g, c < 256 := fun c hc =>
      hchars c (chunksGo_subset T (n / 8) g hg c hc)
    have hglen : g.length ≤ δ := by
      rw [← hdiv8]
      exact chunksGo_length_le T (n / 8) g hg
    have hle := (group_bits_length n δ hδ g hgsub hglen).2
    obtain ⟨hdlen, hdbits⟩ := dOf_spec n g hle
    have hp := codeword_properties n (controlK n) (controlK_val n)
      _ _ _ hdlen hdbits rfl hblkP
    exact ⟨hp.1, hp.2.1⟩
  refine ⟨_, encode_produces_blocks T n hn ⟨δ, hδ⟩ hchars, ?_, ?_⟩
  · intro b hb
    rw [List.mem_flatten] at hb
    obtain ⟨blk, hblk, hbm⟩ := hb
    rw [List.mem_map] at hblk
    obtain ⟨g, hg, hge⟩ := hblk
    exact ((hprops g hg blk hge.symm).2) b hbm
  · rw [flatten_length_uniform (n + controlK n) _ (by
      intro x hx
      rw [List.mem_map] at hx
      obtain ⟨g, hg, hge⟩ := hx
      exact (hprops g hg x hge.symm).1)]
    rw [List.length_map]
    have hq : (chunksGo T (n / 8)).length = (T.length + δ - 1) / δ := by
      unfold chunksGo
      rw [List.length_map, List.length_range, hdiv8]
    rw [hq, get_control_bits_length]
    congr 1
    have hc := ceil_div_mul 8 δ (by omega) hδpos T.length
    have h1 : T.length * 8 = 8 * T.length := Nat.mul_comm _ _
    have h2 : n - 1 = 8 * δ - 1 := by omega
    have h3 : T.length + δ - 1 = T.length + (δ - 1) := by omega
    rw [h1, h2, h3, hδ, hc]

/-- C6 counterexample, refuting the claim at three explicit inputs, one
per restriction of the amendment: `block_length = 4` raises instead of
returning a string (`delta = 0`); a character with code point 256 raises
(`np.dot` shape mismatch); and `block_length = 12` (positive but not a
multiple of 8) returns a 51-character string on a 3-character text where
the claimed formula predicts `ceil(24/12) * 17 = 34`. -/
theorem encode_length_counterexample :
    hamming_encode [65] 4 = none ∧
    hamming_encode [256] 8 = none ∧
    (hamming_encode [65, 65, 65] 12).map List.length = some 51 ∧
    (([65, 65, 65] : List Nat).length * 8 + (12 - 1)) / 12
      * (12 + (get_control_bits 12).length) = 34 :=
  ⟨by decide, by decide, by decide, by decide⟩

theorem encode_length_witness :
    (0 < 8 ∧ 8 ∣ 8 ∧ ∀ c ∈ [72, 105], c < 256) ∧
    ∃ out, hamming_encode [72, 105] 8 = some out ∧ (∀ b ∈ out, b ≤ 1) ∧
      out.length
        = ((([72, 105] : List Nat).length * 8 + (8 - 1)) / 8)
          * (8 + (get_control_bits 8).length) :=
  ⟨⟨by decide, by decide, by decide⟩,
    encode_length [72, 105] 8 (by decide) (by decide) (by decide)⟩

end Hamming

namespace Hamming

/-- C1: round trip.  For 8-bit text whose bit length is a multiple of a
byte-aligned block length `n`, decoding the encoding returns the
original text unchanged. -/
theorem round_trip (T : List Nat) (n : Nat) (hn : 0 < n) (hn8 : 8 ∣ n)
    (hchars : ∀ c ∈ T, c < 256) (hdvd : n ∣ 8 * T.length) :
    ∃ e, hamming_encode T n = some e ∧ hamming_decode e n = some T := by
  obtain ⟨δ, hδ⟩ := hn8
  have hδpos : 0 < δ := by omega
  have hdiv8 : n / 8 = δ := by
    rw [hδ]
    exact Nat.mul_div_cancel_left δ (by omega)
  have hk1 : 1 ≤ controlK n := controlK_pos n hn
  have hδdvd : δ ∣ T.length := by
    have h8 : 8 * δ ∣ 8 * T.length := by rw [← hδ]; exact hdvd
    exact (Nat.mul_dvd_mul_iff_left (show 0 < 8 by omega)).mp h8
  have hmod : T.length % δ = 0 := Nat.mod_eq_zero_of_dvd hδdvd
  have hfull : ∀ g ∈ chunksGo T δ, g.length = δ :=
    chunksGo_full_le hδpos T.length T (Nat.le_refl _) hmod
  have hgsub : ∀ g ∈ chunksGo T δ, ∀ c ∈ g, c < 256 := fun g hg c hc =>
    hchars c (chunksGo_subset T δ g hg c hc)
  have hFlen : ∀ g ∈ chunksGo T δ, ((g.map charToBits).flatten).length = n := by
    intro g hg
    have h := (group_bits_length n δ hδ g (hgsub g hg)
      (by rw [hfull g hg])).1
    rw [h, hfull g hg]
    omega
  refine ⟨_, encode_produces_blocks T n hn ⟨δ, hδ⟩ hchars, ?_⟩
  rw [hdiv8]
  set k := controlK n with hk
  set cb := (List.range k).map (2 ^ ·) with hcb
  set M := transposeK k (hammingRows n k) with hM
  have hnk : n + k < 2 ^ k := by
    have h := controlK_spec n
    rw [← hk] at h
    omega
  have hblockprops : ∀ g ∈ chunksGo T δ,
      ∀ blkP : List Nat,
        blkP = setBits (cb.zip (syndromeOf M (insertPlaceholders cb
          (List.replicate (n - ((g.map charToBits).flatten).length) 0
            ++ (g.map charToBits).flatten))))
          (insertPlaceholders cb
            (List.replicate (n - ((g.map charToBits).flatten).length) 0
              ++ (g.map charToBits).flatten)) →
        blkP.length = n + k ∧ (∀ b ∈ blkP, b ≤ 1) ∧
        stripControl cb blkP = (g.map charToBits).flatten ∧
        bitsToNatLE (syndromeOf M blkP) = 0 := by
    intro g hg blkP hblkP
    have hle : ((g.map charToBits).flatten).length ≤ n := by
      rw [hFlen g hg]
    obtain ⟨hdlen, hdbits⟩ := dOf_spec n g hle
    have hp := codeword_properties n k (by rw [hk]; exact controlK_val n)
      _ _ _ hdlen hdbits rfl hblkP
    refine ⟨hp.1, hp.2.1, ?_, hp.2.2.2.2⟩
    rw [hp.2.2.1, hFlen g hg, Nat.sub_self, List.replicate_zero,
      List.nil_append]
  rw [hamming_decode_eq_of _ n M
    (by rw [hM, hk]; exact get_matrix_transform_controlK n)
    (by rw [get_control_bits_length, ← hk]; omega)]
  rw [get_control_bits_length, ← hk]
  rw [chunksGo_flatten_uniform (show 0 < n + k by omega) _ (by
    intro x hx
    rw [List.mem_map] at hx
    obtain ⟨g, hg, hge⟩ := hx
    exact (hblockprops g hg x hge.symm).1)]
  rw [mapMOpt_eq_some _
    (fun b => (chunksGo (stripControl (get_control_bits n) b) 8).map
      bitsToNatBE) _ (by
    intro b hb
    rw [List.mem_map] at hb
    obtain ⟨g, hg, hge⟩ := hb
    have hp := hblockprops g hg b hge.symm
    exact decode_block_pass_through n k hk1 b hp.1 (Or.inl hp.2.2.2))]
  simp only [Option.map_some']
  congr 1
  rw [List.map_map]
  have hmapid : (chunksGo T δ).map
      ((fun b => (chunksGo (stripControl (get_control_bits n) b) 8).map
        bitsToNatBE) ∘ (fun g =>
          setBits (cb.zip (syndromeOf M (insertPlaceholders cb
            (List.replicate (n - ((g.map charToBits).flatten).length) 0
              ++ (g.map charToBits).flatten))))
          (insertPlaceholders cb
            (List.replicate (n - ((g.map charToBits).flatten).length) 0
              ++ (g.map charToBits).flatten))))
      = (chunksGo T δ).map (fun g => g) := by
    apply List.map_congr_left
    intro g hg
    simp only [Function.comp_apply]
    have hp := hblockprops g hg _ rfl
    have hstrip : stripControl (get_control_bits n) (setBits
        (cb.zip (syndromeOf M (insertPlaceholders cb
          (List.replicate (n - ((g.map charToBits).flatten).length) 0
            ++ (g.map charToBits).flatten))))
        (insertPlaceholders cb
          (List.replicate (n - ((g.map charToBits).flatten).length) 0
            ++ (g.map charToBits).flatten)))
        = (g.map charToBits).flatten := hp.2.2.1
    rw [hstrip]
    rw [chunksGo_flatten_uniform (show (0 : Nat) < 8 by omega) _ (by
      intro x hx
      rw [List.mem_map] at hx
      obtain ⟨c, hc, rfl⟩ := hx
      exact charToBits_length c (hgsub g hg c hc))]
    rw [List.map_map]
    have : g.map (bitsToNatBE ∘ charToBits) = g.map (fun c => c) := by
      apply List.map_congr_left
      intro c _
      simp only [Function.comp_apply]
      exact bitsToNatBE_charToBits c
    rw [this, List.map_id']
  rw [hmapid, List.map_id', chunksGo_flatten hδpos]

theorem round_trip_witness :
    (0 < 8 ∧ (8 : Nat) ∣ 8 ∧ (∀ c ∈ [72, 105], c < 256) ∧
      (8 : Nat) ∣ 8 * ([72, 105] : List Nat).length) ∧
    ∃ e, hamming_encode [72, 105] 8 = some e ∧
      hamming_decode e 8 = some [72, 105] :=
  ⟨⟨by decide, by decide, by decide, by decide⟩,
    round_trip [72, 105] 8 (by decide) (by decide) (by decide) (by decide)⟩

end Hamming

namespace Hamming

lemma chunksGo_single (l : List α) (c : Nat) (hc : 0 < c)
    (hl : l.length = c) : chunksGo l c = [l] := by
  have h := chunksGo_flatten_uniform hc [l] (by
    intro x hx
    rw [List.mem_singleton] at hx
    rw [hx, hl])
  rwa [List.flatten_cons, List.flatten_nil, List.append_nil] at h

/-- C2 counterexample: the claim quantifies over all positions
`p ∈ 1..len(C)`; at `p = len(C) = n + k` (here 12) the syndrome equals
`n + k`, the block is passed through uncorrected, and the decoded
plaintext changes (`'A'` becomes `'@'`). -/
theorem flip_last_position_changes_plaintext :
    hamming_encode [65] 8 = some [1, 0, 0, 0, 1, 0, 0, 1, 0, 0, 0, 1] ∧
    (8 : Nat) + (get_control_bits 8).length = 12 ∧
    hamming_decode (flipAt 12 [1, 0, 0, 0, 1, 0, 0, 1, 0, 0, 0, 1]) 8
      ≠ hamming_decode [1, 0, 0, 0, 1, 0, 0, 1, 0, 0, 0, 1] 8 := by
  refine ⟨by decide, by decide, ?_⟩
  decide

lemma mapMOpt_mem_inv (f : α → Option β) :
    ∀ (l : List α) (ys : List β), mapMOpt f l = some ys →
      ∀ y ∈ ys, ∃ x ∈ l, f x = some y := by
  intro l
  induction l with
  | nil =>
    intro ys h y hy
    simp only [mapMOpt] at h
    rw [← Option.some_inj.mp h] at hy
    simp at hy
  | cons x xs ih =>
    intro ys h y hy
    rcases hfx : f x with _ | y0 <;> rcases hrec : mapMOpt f xs with _ | ys' <;>
      simp only [mapMOpt, hfx, hrec] at h
    · exact Option.noConfusion h
    · exact Option.noConfusion h
    · exact Option.noConfusion h
    · rw [← Option.some_inj.mp h] at hy
      rcases List.mem_cons.mp hy with rfl | hy'
      · exact ⟨x, List.mem_cons_self _ _, hfx⟩
      · obtain ⟨x', hx', hfx'⟩ := ih ys' hrec y hy'
        exact ⟨x', List.mem_cons_of_mem _ hx', hfx'⟩

/-- Inversion of the encoder's per-block body: whenever it succeeds, the
produced block is a length-`(n+k)` zero-syndrome bit string, for any
characters (wide characters make the body fail, never lie). -/
lemma hamming_encode_block_inv (n k : Nat)
    (hval : ∀ i, i < k → 2 ^ i ≤ n + i + 1) (g b : List Nat)
    (hb : hamming_encode_block (transposeK k (hammingRows n k))
      ((List.range k).map (2 ^ ·)) n g = some b) :
    b.length = n + k ∧ (∀ x ∈ b, x ≤ 1) ∧
    (∀ r, r < k →
      (syndromeOf (transposeK k (hammingRows n k)) b).getD r 0 = 0) ∧
    bitsToNatLE (syndromeOf (transposeK k (hammingRows n k)) b) = 0 := by
  simp only [hamming_encode_block] at hb
  set d := (if (g.foldl (fun acc c => acc ++ charToBits c) []).length ≠ n then
      List.replicate (n - (g.foldl (fun acc c => acc ++ charToBits c) []).length) 0
        ++ g.foldl (fun acc c => acc ++ charToBits c) []
    else g.foldl (fun acc c => acc ++ charToBits c) []) with hddef
  split at hb
  case isFalse => exact Option.noConfusion hb
  case isTrue hguard =>
    have hbw := Option.some_inj.mp hb
    have hcbl : ((List.range k).map (2 ^ ·)).length = k := by
      rw [List.length_map, List.length_range]
    rw [insertPlaceholders_length, hcbl] at hguard
    have hd : d.length = n := by omega
    have hbin0 : ∀ x ∈ g.foldl (fun acc c => acc ++ charToBits c) [], x ≤ 1 := by
      rw [foldl_append_eq_flatten]
      intro x hx
      rw [List.nil_append, List.mem_flatten] at hx
      obtain ⟨L, hL, hxL⟩ := hx
      rw [List.mem_map] at hL
      obtain ⟨c, _, rfl⟩ := hL
      exact charToBits_le_one c x hxL
    have hdbits : ∀ x ∈ d, x ≤ 1 := by
      intro x hx
      rw [hddef] at hx
      split at hx
      · rcases List.mem_append.mp hx with h | h
        · rw [List.eq_of_mem_replicate h]
          omega
        · exact hbin0 x h
      · exact hbin0 x hx
    have hp := codeword_properties n k hval d _ b hd hdbits rfl hbw.symm
    exact ⟨hp.1, hp.2.1, hp.2.2.2.1, hp.2.2.2.2⟩

/-- Inversion of the encoder: a successful encoding is a concatenation
of length-`(n+k)` zero-syndrome codewords. -/
lemma hamming_encode_inv (T : List Nat) (n : Nat) (e : List Nat)
    (he : hamming_encode T n = some e) :
    ∃ blocks : List (List Nat), e = blocks.flatten ∧
      ∀ b ∈ blocks, b.length = n + controlK n ∧ (∀ x ∈ b, x ≤ 1) ∧
        (∀ r, r < controlK n →
          (syndromeOf (transposeK (controlK n)
            (hammingRows n (controlK n))) b).getD r 0 = 0) ∧
        bitsToNatLE (syndromeOf (transposeK (controlK n)
          (hammingRows n (controlK n))) b) = 0 := by
  by_cases hδ0 : n / 8 = 0
  · exfalso
    simp only [hamming_encode, get_matrix_transform_controlK n] at he
    rw [hδ0] at he
    simp [wrap] at he
  · rw [hamming_encode_eq_of T n _ (get_matrix_transform_controlK n)
      (by omega)] at he
    rw [Option.map_eq_some'] at he
    obtain ⟨blocks, hblocks, hflat⟩ := he
    refine ⟨blocks, hflat.symm, ?_⟩
    intro b hb
    obtain ⟨g, _, hgb⟩ := mapMOpt_mem_inv _ _ _ hblocks b hb
    have hcb : get_control_bits n = (List.range (controlK n)).map (2 ^ ·) := rfl
    rw [hcb] at hgb
    exact hamming_encode_block_inv n (controlK n) (controlK_val n) g b hgb

/-- C2 (amended): for every text `T` and block length `n ≥ 1` such that
`hamming_encode` succeeds and its output is a single codeword `C`
(length `n + k`), and every position `p ∈ 1..n+k-1`, decoding `C` with
bit `p` flipped yields the same plaintext as decoding `C` unmodified.
The boundary position `p = n + k` is excluded, since the code treats
syndrome `n + k` as uncorrectable and passes the corrupted block
through. -/
theorem single_error_correction (T : List Nat) (n : Nat) (hn : 0 < n)
    (e : List Nat) (he : hamming_encode T n = some e)
    (hlen : e.length = n + (get_control_bits n).length)
    (p : Nat) (hp1 : 1 ≤ p) (hp2 : p < n + (get_control_bits n).length) :
    hamming_decode (flipAt p e) n = hamming_decode e n := by
  obtain ⟨blocks, hbe, hprops⟩ := hamming_encode_inv T n e he
  set k := controlK n with hk
  have hk1 : 1 ≤ k := by rw [hk]; exact controlK_pos n hn
  have hnk : n + k < 2 ^ k := by
    have h := controlK_spec n
    rw [← hk] at h
    omega
  rw [get_control_bits_length, ← hk] at hlen hp2
  have hlen1 : blocks.length * (n + k) = n + k := by
    rw [← flatten_length_uniform (n + k) blocks
      (fun b hb => (hprops b hb).1), ← hbe, hlen]
  have hone : blocks.length = 1 := by
    have h2 : blocks.length ≠ 0 := by
      intro h0
      rw [h0, Nat.zero_mul] at hlen1
      omega
    have h3 : blocks.length < 2 := by
      by_contra hge
      push_neg at hge
      have := Nat.mul_le_mul_right (n + k) hge
      omega
    omega
  obtain ⟨b, hb⟩ := List.length_eq_one.mp hone
  rw [hb, List.flatten_cons, List.flatten_nil, List.append_nil] at hbe
  have hbp := hprops b (by rw [hb]; exact List.mem_cons_self _ _)
  rw [← hbe] at hbp
  set cb := (List.range k).map (2 ^ ·) with hcb
  set M := transposeK k (hammingRows n k) with hM
  have hMT : get_matrix_transform n (get_control_bits n).length = some M := by
    rw [hM, hk]
    exact get_matrix_transform_controlK n
  have hpos : 0 < n + (get_control_bits n).length := by
    rw [get_control_bits_length, ← hk]
    omega
  have hflen : (flipAt p e).length = n + k := by
    rw [flipAt, List.length_set]
    exact hlen
  rw [hamming_decode_eq_of (flipAt p e) n M hMT hpos,
    hamming_decode_eq_of e n M hMT hpos,
    get_control_bits_length, ← hk,
    chunksGo_single (flipAt p e) (n + k) (by omega) hflen,
    chunksGo_single e (n + k) (by omega) hlen]
  have hdecflip : hamming_decode_block M (get_control_bits n) n (flipAt p e)
      = some ((chunksGo (stripControl cb e) 8).map bitsToNatBE) :=
    decode_block_corrects n k hk1 e hlen hbp.2.1 hbp.2.2.1 hnk p hp1 hp2
  have hdece : hamming_decode_block M (get_control_bits n) n e
      = some ((chunksGo (stripControl cb e) 8).map bitsToNatBE) :=
    decode_block_pass_through n k hk1 e hlen (Or.inl hbp.2.2.2)
  simp only [mapMOpt, hdecflip, hdece]

theorem single_error_correction_witness :
    (0 < 12 ∧
      hamming_encode [65] 12
        = some [1, 1, 0, 0, 0, 0, 0, 1, 0, 1, 0, 0, 0, 0, 0, 1, 1] ∧
      ([1, 1, 0, 0, 0, 0, 0, 1, 0, 1, 0, 0, 0, 0, 0, 1, 1] : List Nat).length
        = 12 + (get_control_bits 12).length ∧
      1 ≤ 5 ∧ 5 < 12 + (get_control_bits 12).length) ∧
    hamming_decode (flipAt 5 [1, 1, 0, 0, 0, 0, 0, 1, 0, 1, 0, 0, 0, 0, 0, 1, 1]) 12
      = hamming_decode [1, 1, 0, 0, 0, 0, 0, 1, 0, 1, 0, 0, 0, 0, 0, 1, 1] 12 :=
  ⟨⟨by decide, by decide, by decide, by decide, by decide⟩,
    single_error_correction [65] 12 (by decide)
      [1, 1, 0, 0, 0, 0, 0, 1, 0, 1, 0, 0, 0, 0, 0, 1, 1] (by decide)
      (by decide) 5 (by decide) (by decide)⟩

end Hamming

namespace Hamming

/-- C5: a block whose syndrome value is at least `n + k` (including
exactly `n + k`) is classified uncorrectable: no bit is flipped, the
unmodified block goes straight to parity stripping, and decoding
completes without an exception. -/
theorem uncorrectable_pass_through (n : Nat) (hn : 1 ≤ n) (c : List Nat)
    (hlen : c.length = n + (get_control_bits n).length)
    (hsyn : n + (get_control_bits n).length
      ≤ bitsToNatLE (syndromeOf
          (transposeK (controlK n) (hammingRows n (controlK n))) c)) :
    hamming_decode c n
      = some ((chunksGo (stripControl (get_control_bits n) c) 8).map
          bitsToNatBE) := by
  set k := controlK n with hk
  set M := transposeK k (hammingRows n k) with hM
  have hk1 : 1 ≤ k := by rw [hk]; exact controlK_pos n hn
  have hMT : get_matrix_transform n (get_control_bits n).length = some M := by
    rw [hM, hk]
    exact get_matrix_transform_controlK n
  have hkn : (get_control_bits n).length = k := by
    rw [get_control_bits_length, ← hk]
  rw [hkn] at hlen hsyn
  have hcbeq : get_control_bits n = (List.range k).map (2 ^ ·) := by
    rw [hk]
    rfl
  rw [hamming_decode_eq_of c n M hMT (by rw [hkn]; omega), hkn,
    chunksGo_single c (n + k) (by omega) hlen]
  have hdec : hamming_decode_block M (get_control_bits n) n c
      = some ((chunksGo (stripControl ((List.range k).map (2 ^ ·)) c) 8).map
          bitsToNatBE) :=
    decode_block_pass_through n k hk1 c hlen (Or.inr (by rw [← hM]; exact hsyn))
  simp only [mapMOpt, hdec]
  rw [← hcbeq]
  simp [List.flatten_cons]

theorem uncorrectable_pass_through_witness :
    (1 ≤ 8 ∧ ([1, 0, 0, 0, 1, 0, 0, 1, 0, 0, 0, 0] : List Nat).length
        = 8 + (get_control_bits 8).length ∧
      8 + (get_control_bits 8).length
        ≤ bitsToNatLE (syndromeOf
            (transposeK (controlK 8) (hammingRows 8 (controlK 8)))
            [1, 0, 0, 0, 1, 0, 0, 1, 0, 0, 0, 0])) ∧
    hamming_decode [1, 0, 0, 0, 1, 0, 0, 1, 0, 0, 0, 0] 8
      = some ((chunksGo (stripControl (get_control_bits 8)
          [1, 0, 0, 0, 1, 0, 0, 1, 0, 0, 0, 0]) 8).map bitsToNatBE) :=
  ⟨⟨by decide, by decide, by decide⟩,
    uncorrectable_pass_through 8 (by decide)
      [1, 0, 0, 0, 1, 0, 0, 1, 0, 0, 0, 0] (by decide) (by decide)⟩

end Hamming
